import Mathlib

/-!
Verification of SC.RecordArray (SproutCore datastore record arrays).

Shallow embedding of src/unnamed/part_000.  Store keys are opaque numeric
identifiers, modelled as Nat.  JavaScript arrays of store keys are modelled
as List Nat; out-of-range element access yields undefined in JavaScript,
modelled here as Option Nat with none playing the role of undefined
(undefined == undefined is true, undefined == number is false, which is
exactly the equality of Option Nat values).

The record array object state is modelled by the structure ViewState and a
world of views indexed by numeric ids (SC.guidFor is modelled by the id
itself).  The external collaborators are modelled as follows:
- the store is a passive collaborator; store.materializeRecord(storeKey) is
  modelled as the storeKey itself (the cache maps indexes to handles);
- query.merge is an external operation, modelled as a function parameter of
  type MergeFn;
- SC.Set is modelled as a duplicate-free list in insertion order;
- observable arrayContentDidChange notifications are recorded in a per-view
  log, and the destroy-time deregistration calls in a world event log.
-/

namespace SCRecordArray

/-- JavaScript element access with a possibly negative index: a negative or
out-of-range index reads as undefined (none). -/
def jsGet (l : List Nat) (i : Int) : Option Nat :=
  if i < 0 then none else l.get? i.toNat

/-- SC.Set.add: adds a key if not already present (set semantics, insertion
order preserved). -/
def scadd (s : List Nat) (k : Nat) : List Nat :=
  if k ∈ s then s else s ++ [k]

/-- SC.Set.addEach: adds each key of the enumerable in turn. -/
def scAddEach (s : List Nat) (ks : List Nat) : List Nat :=
  ks.foldl scadd s

/-- The forward scan of _findDifferences:
while (oldStoreKeys[startIdx] == storeKeys[startIdx] && startIdx < newLen)
  startIdx += 1.
The loop is bounded by fuel; newLen + 1 units of fuel always suffice because
each iteration requires startIdx < newLen. -/
def fwdScan (o n : List Nat) : Nat → Nat → Nat
  | 0, i => i
  | fuel + 1, i =>
    if o.get? i = n.get? i ∧ i < n.length then fwdScan o n fuel (i + 1) else i

/-- The backward scan of _findDifferences:
while (oldStoreKeys[endIdx] == storeKeys[endIdx] && endIdx > startIdx)
  endIdx -= 1.
endIdx starts at newLen - 1 and may be -1 when the new array is empty, hence
the Int index. -/
def bwdScan (o n : List Nat) (startIdx : Nat) : Nat → Int → Int
  | 0, e => e
  | fuel + 1, e =>
    if jsGet o e = jsGet n e ∧ (startIdx : Int) < e then
      bwdScan o n startIdx fuel (e - 1)
    else e

/-- _findDifferences(oldStoreKeys, storeKeys).  The result models the
returned SC.IndexSet.create(start, length) as some (start, length), and the
null result as none.  oldStoreKeys may be null (none); the flush engine
always hands a real array as the second argument, so it is a plain list.
The reference-identity fast path (oldStoreKeys === storeKeys) is modelled by
the value-equality test: for value-equal arrays that are not reference-equal
the scan path of the source also returns null, so the two are observationally
the same on list values. -/
def findDifferences (oldStoreKeys : Option (List Nat)) (storeKeys : List Nat) :
    Option (Nat × Nat) :=
  match oldStoreKeys with
  | none => if storeKeys.length = 0 then none else some (0, storeKeys.length)
  | some o =>
    if o = storeKeys then none
    else
      let oldLen := o.length
      let newLen := storeKeys.length
      let maxLen := if oldLen > newLen then oldLen else newLen
      let startIdx := fwdScan o storeKeys (newLen + 1) 0
      let endIdx := bwdScan o storeKeys startIdx (newLen + 1) ((newLen : Int) - 1)
      if startIdx < maxLen then
        some (startIdx,
          if (startIdx : Int) ≤ endIdx then (endIdx - startIdx + 1).toNat
          else maxLen - startIdx)
      else none

/-- Replacing the slice of a at the index range [start, start + count) with
the slice of b at the same range (the splice operation the spec claims
reproduces b). -/
def spliceRange (a : List Nat) (start count : Nat) (b : List Nat) : List Nat :=
  a.take start ++ (b.drop start).take count ++ a.drop (start + count)

/-! The record array state model.  Views are indexed by numeric ids; the
world holds the state of every view plus an event log of the observable
calls made during destruction. -/
/-- One accumulated change batch: the added, deleted and updated key sets of
_scra_changedStoreKeys for one origin. -/
structure ChangeBatch where
  added : List Nat
  deleted : List Nat
  updated : List Nat
  deriving DecidableEq

/-- The origin key of a change batch: SC.guidFor of the store or of a parent
record array. -/
inductive Origin where
  | store
  | view (id : Nat)
  deriving DecidableEq

/-- The _scra_changedStoreKeys dictionary: batches keyed by origin. -/
abbrev Batches := List (Origin × ChangeBatch)

def lookupBatch : Batches → Origin → Option ChangeBatch
  | [], _ => none
  | (o', b) :: rest, o => if o' = o then some b else lookupBatch rest o

def setBatch : Batches → Origin → ChangeBatch → Batches
  | [], o, b => [(o, b)]
  | (o', b') :: rest, o, b =>
    if o' = o then (o, b) :: rest else (o', b') :: setBatch rest o b

/-- SC.Query.LOCAL versus SC.Query.REMOTE. -/
inductive QueryLocation where
  | localQ
  | remote
  deriving DecidableEq

/-- Observable calls of the destroy path: deregistration from a parent
(scopeItem.source.recordArrayWillDestroy(this)) and detaching from the store
(store.recordArrayWillDestroy(this), the marker of a completed destroy). -/
inductive DEvent where
  | dereg (parent child : Nat)
  | storeDetach (v : Nat)
  deriving DecidableEq

/-- The state of one SC.RecordArray.  The query object is immutable, so its
relevant fields (location, isEditable, scope) are inlined; the store and the
query always exist (the class requires both), so the null checks on them in
flush are vacuous here.  records is the materialization cache _scra_records
(a record handle is modelled by its store key); notifications is the log of
arrayContentDidChange(start, removed, added) calls. -/
structure ViewState where
  enabled : Bool
  needsFlush : Bool
  insideFlush : Bool
  flushed : Bool
  isDestroyed : Bool
  location : QueryLocation
  isEditable : Bool
  scope : Option (List Nat)
  nested : Option (List Nat)
  storeKeys : Option (List Nat)
  records : Option (List (Option Nat))
  changed : Option Batches
  notifications : List (Int × Int × Int)
  deriving DecidableEq

/-- The result of query.merge(oldStoreKeys, changedStoreKeys, recordArray). -/
structure MergeResult where
  storeKeys : List Nat
  added : List Nat
  deleted : List Nat
  updated : List Nat

/-- query.merge as an external operation: it receives the record array id,
the current store keys (null when forced) and the accumulated batches. -/
abbrev MergeFn := Nat → Option (List Nat) → Option Batches → MergeResult

structure World where
  views : Nat → ViewState
  events : List DEvent

def World.setView (w : World) (v : Nat) (s : ViewState) : World :=
  { w with views := fun i => if i = v then s else w.views i }

/-- Clearing the cache slots over the diffed index range:
differenceSet.forEach(function(index) { recordCache[index] = null; }).
An assignment beyond the current length extends the array; holes read as
undefined, modelled by the getD default. -/
def clearRange (cache : List (Option Nat)) (start count : Nat) :
    List (Option Nat) :=
  (List.range (max cache.length (start + count))).map
    (fun i => if start ≤ i ∧ i < start + count then none else cache.getD i none)

/-- recordCache.length = newLen: truncate, or extend with holes. -/
def setLength (cache : List (Option Nat)) (len : Nat) : List (Option Nat) :=
  (List.range len).map (fun i => cache.getD i none)

/-- _notifyStoreKeyChanges(oldStoreKeys, storeKeys, differenceSet), acting on
the state of the view it is called on. -/
def notifyStoreKeyChanges (vs : ViewState) (oldStoreKeys : Option (List Nat))
    (storeKeys : List Nat) (differenceSet : Nat × Nat) : ViewState :=
  let newLen := storeKeys.length
  let oldLen := match oldStoreKeys with | some o => o.length | none => 0
  let firstDifference := differenceSet.1
  let vs := match vs.records with
    | some recordCache =>
      let cache := setLength (clearRange recordCache differenceSet.1 differenceSet.2) newLen
      { vs with records := some cache }
    | none => vs
  { vs with notifications := vs.notifications ++
      [((firstDifference : Int),
        (oldLen : Int) - (firstDifference : Int),
        (newLen : Int) - (firstDifference : Int))] }

/-- parentDidChangeStoreKeys(added, deleted, updated, parent) on view v. -/
def parentDidChangeStoreKeys (w : World) (v : Nat)
    (added deleted updated : List Nat) (parent : Nat) : World :=
  if added.length + deleted.length + updated.length = 0 then w
  else
    let vs := w.views v
    let dict := vs.changed.getD []
    let changed := (lookupBatch dict (Origin.view parent)).getD ⟨[], [], []⟩
    let changed := { changed with
      added := scAddEach changed.added added,
      deleted := scAddEach changed.deleted deleted,
      updated := scAddEach changed.updated updated }
    w.setView v { vs with changed := some (setBatch dict (Origin.view parent) changed) }

/-- parentDidBecomeDirty on view v: marks the view dirty and recursively
notifies all nested record arrays.  The recursion is bounded by fuel. -/
def parentDidBecomeDirty : Nat → World → Nat → World
  | 0, w, _ => w
  | fuel + 1, w, v =>
    let w := w.setView v { w.views v with needsFlush := true }
    match (w.views v).nested with
    | some ns => ns.foldl (fun acc c => parentDidBecomeDirty fuel acc c) w
    | none => w

/-- storeDidChangeStoreKeys(storeKeys, recordTypes) on view v.
containsRecordTypes stands for query.containsRecordTypes(recordTypes). -/
def storeDidChangeStoreKeys (fuel : Nat) (w : World) (v : Nat)
    (storeKeys : List Nat) (containsRecordTypes : Bool) : World :=
  let vs := w.views v
  if vs.location ≠ QueryLocation.localQ then w
  else if containsRecordTypes = false then w
  else if storeKeys.length = 0 then w
  else
    let dict := vs.changed.getD []
    let changed := (lookupBatch dict Origin.store).getD ⟨[], [], []⟩
    let changed := { changed with updated := scAddEach changed.updated storeKeys }
    let w := w.setView v { vs with changed := some (setBatch dict Origin.store changed) }
    parentDidBecomeDirty fuel w v

/-- The merge invocation inside flush, acting on the state of the view it is
called on: mark flushed, invoke merge, clear the batches, diff the old and
new store keys, and apply and notify the difference.  Returns the updated
view state together with the merge result. -/
def mergeStep (m : MergeFn) (force : Bool) (v : Nat) (vs : ViewState) :
    ViewState × MergeResult :=
  let vs := { vs with flushed := true }
  let storeKeys := vs.storeKeys
  let queryResult := m v (if force = true then none else storeKeys) vs.changed
  let vs := { vs with changed := none }
  let newStoreKeys := queryResult.storeKeys
  let differenceSet := findDifferences storeKeys newStoreKeys
  let vs := match differenceSet with
    | some ds =>
      notifyStoreKeyChanges { vs with storeKeys := some newStoreKeys }
        storeKeys newStoreKeys ds
    | none => vs
  (vs, queryResult)

/-- The body of the block guarded by
(this._scra_changedStoreKeys || !this._flushed) in flush: perform the merge
step on the view and forward the relevant change sets of the merge result to
the nested record arrays. -/
def flushMergePhase (m : MergeFn) (force : Bool) (w : World) (v : Nat) : World :=
  let vs := w.views v
  if vs.changed.isSome = true ∨ vs.flushed = false then
    let res := mergeStep m force v vs
    let w := w.setView v res.1
    match (w.views v).nested with
    | some ns => ns.foldl (fun acc c =>
        parentDidChangeStoreKeys acc c res.2.added res.2.deleted
          res.2.updated v) w
    | none => w
  else w

/-- flush(_flush) on view v.  The recursion into the parent scopes is bounded
by fuel; a zero-fuel call behaves like the degenerate early return. -/
def flush : Nat → MergeFn → Bool → World → Nat → World
  | 0, _, _, w, _ => w
  | fuel + 1, m, force, w, v =>
    if (w.views v).needsFlush = false ∧ force = false then w
    else if (w.views v).enabled = false then w
    else if (w.views v).insideFlush = true then w
    else
      let w1 := w.setView v { w.views v with needsFlush := false }
      if (w.views v).location ≠ QueryLocation.localQ then w1
      else
        let w2 := w1.setView v { w1.views v with insideFlush := true }
        let w3 := match (w.views v).scope with
          | some parents => parents.foldl (fun acc p => flush fuel m false acc p) w2
          | none => w2
        let w4 := flushMergePhase m force w3 v
        w4.setView v { w4.views v with insideFlush := false }

/-- flushFromLeafs: recurse to the leaves of the query tree and flush there
(a view with a nested set, even an empty one, does not flush itself). -/
def flushFromLeafs : Nat → MergeFn → World → Nat → World
  | 0, _, w, _ => w
  | fuel + 1, m, w, v =>
    match (w.views v).nested with
    | some ns => ns.foldl (fun acc c => flushFromLeafs fuel m acc c) w
    | none => flush (fuel + 1) m false w v

def enable (fuel : Nat) (m : MergeFn) (w : World) (v : Nat) : World :=
  if (w.views v).enabled = true then w
  else flushFromLeafs fuel m (w.setView v { w.views v with enabled := true }) v

def disable (w : World) (v : Nat) : World :=
  w.setView v { w.views v with enabled := false }

/-- registerNestedRecordArray(child): creates the nested set if absent and
adds the child with set semantics. -/
def registerNestedRecordArray (w : World) (v : Nat) (child : Nat) : World :=
  let ns := (w.views v).nested.getD []
  w.setView v { w.views v with
    nested := some (if child ∈ ns then ns else ns ++ [child]) }

/-- recordArrayWillDestroy(recordArray) on view v: the call is recorded as a
deregistration event, and the record array is removed from the nested set. -/
def recordArrayWillDestroy (w : World) (v : Nat) (recordArray : Nat) : World :=
  let w := { w with events := w.events ++ [DEvent.dereg v recordArray] }
  match (w.views v).nested with
  | some ns =>
    w.setView v { w.views v with nested := some (ns.filter (fun c => c ≠ recordArray)) }
  | none => w

/-- The tail of destroy(), after parents were deregistered and the nested
record arrays destroyed: detach from the store (logged as an event), clear
the materialization cache, fire the final content-changed notification over
the captured prior length, and let the base class mark the view destroyed.
storeKeys and len are the values captured at the start of destroy. -/
def destroyFinish (w : World) (v : Nat) (storeKeys : Option (List Nat))
    (len : Nat) : World :=
  let w := { w with events := w.events ++ [DEvent.storeDetach v] }
  let w := match (w.views v).records with
    | some _ => w.setView v { w.views v with records := some [] }
    | none => w
  let w := match storeKeys with
    | some _ => w.setView v { w.views v with notifications :=
        (w.views v).notifications ++ [((0 : Int), (len : Int), (0 : Int))] }
    | none => w
  w.setView v { w.views v with isDestroyed := true }

/-- destroy() on view v.  The base class destroy (sc_super) is modelled from
the spec: destruction is guarded by isDestroyed, which the base class sets,
making a second call a no-op.  The willChange half of the final notification
pair is not tracked; the log records the arrayContentDidChange(0, len, 0)
call.  The recursion into nested record arrays is bounded by fuel. -/
def destroy : Nat → World → Nat → World
  | 0, w, _ => w
  | fuel + 1, w, v =>
    if (w.views v).isDestroyed = true then
      w.setView v { w.views v with isDestroyed := true }
    else
      let vs := w.views v
      let w := match vs.scope with
        | some ps => ps.foldl (fun acc p => recordArrayWillDestroy acc p v) w
        | none => w
      let w := match vs.nested with
        | some ns => ns.foldl (fun acc c => destroy fuel acc c) w
        | none => w
      destroyFinish w v vs.storeKeys (vs.storeKeys.getD []).length

/-- The errors replace can raise: the NOT_EDITABLE SC.Error, and the plain
thrown string for a missing storeKeys binding. -/
inductive RAError where
  | notEditable
  | noStoreKeys
  deriving DecidableEq

/-- storeKeys.replace(idx, amt, keys). -/
def jsSplice (l : List Nat) (idx amt : Nat) (keys : List Nat) : List Nat :=
  l.take idx ++ keys ++ l.drop (idx + amt)

/-- replace(idx, amt, recs) on view v.  The records are modelled by their
store keys (the source maps recs.objectAt(i).get(storeKey)).  A JavaScript
throw aborts the call but keeps the state mutations already made, so the
result is the post-flush world paired with the outcome. -/
def replace (fuel : Nat) (m : MergeFn) (w : World) (v : Nat)
    (idx amt : Nat) (recs : List Nat) : World × Except RAError Unit :=
  let w := flush fuel m false w v
  let vs := w.views v
  match vs.storeKeys with
  | none => (w, Except.error RAError.noStoreKeys)
  | some sk =>
    if vs.isEditable = false then (w, Except.error RAError.notEditable)
    else
      (w.setView v { vs with storeKeys := some (jsSplice sk idx amt recs) },
        Except.ok ())

/-- An argument to indexOf and lastIndexOf: either an SC.Record (carrying its
store key) or a value that is not a record. -/
inductive JsArg where
  | record (storeKey : Nat)
  | notRecord
  deriving DecidableEq

def jsIndexOf (l : List Nat) (k : Nat) (startAt : Nat) : Int :=
  match (l.drop startAt).findIdx? (fun x => x == k) with
  | some i => ((startAt + i : Nat) : Int)
  | none => -1

def jsLastIndexOf (l : List Nat) (k : Nat) (startAt : Nat) : Int :=
  match ((List.range l.length).filter
      (fun i => decide (i ≤ startAt ∧ l.get? i = some k))).getLast? with
  | some i => (i : Int)
  | none => -1

/-- indexOf(record, startAt) on view v.  With a non-record argument the
source logs a warning and returns -1 before flushing; it never raises. -/
def indexOf (fuel : Nat) (m : MergeFn) (w : World) (v : Nat)
    (arg : JsArg) (startAt : Nat) : World × Except RAError Int :=
  match arg with
  | JsArg.notRecord => (w, Except.ok (-1))
  | JsArg.record storeKey =>
    let w := flush fuel m false w v
    match (w.views v).storeKeys with
    | none => (w, Except.ok (-1))
    | some storeKeys => (w, Except.ok (jsIndexOf storeKeys storeKey startAt))

/-- lastIndexOf(record, startAt) on view v, same shape as indexOf. -/
def lastIndexOf (fuel : Nat) (m : MergeFn) (w : World) (v : Nat)
    (arg : JsArg) (startAt : Nat) : World × Except RAError Int :=
  match arg with
  | JsArg.notRecord => (w, Except.ok (-1))
  | JsArg.record storeKey =>
    let w := flush fuel m false w v
    match (w.views v).storeKeys with
    | none => (w, Except.ok (-1))
    | some storeKeys => (w, Except.ok (jsLastIndexOf storeKeys storeKey startAt))

/-- A view state with every flag at its quiescent value, used to build the
concrete worlds of the examples. -/
def blankView : ViewState :=
  { enabled := true, needsFlush := false, insideFlush := false, flushed := false,
    isDestroyed := false, location := QueryLocation.localQ, isEditable := false,
    scope := none, nested := none, storeKeys := none, records := none,
    changed := none, notifications := [] }

/-- A merge function returning empty results, for witnesses that never reach
the merge. -/
def mergeNull : MergeFn := fun _ _ _ => ⟨[], [], [], []⟩

/-! Claim C2: the concrete flush of [k1,k2,k3] against merge result
[k1,k4,k3], with keys k1=1, k2=2, k3=3, k4=4. -/
/-- The merge of the C2 example: returns [1,4,3] with 4 added and 2
deleted. -/
def mergeC2 : MergeFn := fun _ _ _ => ⟨[1, 4, 3], [4], [2], []⟩

/-- The world of the C2 example: view 0 holds [1,2,3] with all three records
materialized and one pending store batch. -/
def worldC2 : World :=
  { views := fun i => if i = 0 then
      { blankView with
          needsFlush := true, flushed := true,
          storeKeys := some [1, 2, 3], records := some [some 1, some 2, some 3],
          changed := some [(Origin.store, ⟨[], [], [5]⟩)] }
    else blankView,
    events := [] }

/-- A world whose only interesting view is dirty, enabled and currently
inside a flush. -/
def worldC4 : World :=
  { views := fun _ => { blankView with needsFlush := true, insideFlush := true },
    events := [] }

/-! Claim C6: dirty propagation on incoming change notifications. -/
/-- The nested record array ids of a view (empty when the set was never
created). -/
def nestedOf (w : World) (v : Nat) : List Nat := ((w.views v).nested).getD []

/-- c is reachable from v in exactly d steps along the registered nested
record arrays. -/
def DescAt (w : World) : Nat → Nat → Nat → Prop
  | v, c, 0 => v = c
  | v, c, d + 1 => ∃ u ∈ nestedOf w v, DescAt w u c d

/-- A world with a parent view 0 holding a nested child 1, both local. -/
def worldC6 : World :=
  { views := fun i =>
      if i = 0 then { blankView with nested := some [1] } else blankView,
    events := [] }

/-! Claim C8: replace on a non-editable view. -/
/-- C8 counterexample: a non-editable view with a pending change batch.  The
replace call raises NOT_EDITABLE, but the flush it performs first updates
storeKeys, so the store keys sequence is not left unchanged by the call. -/
def worldC8 : World :=
  { views := fun i => if i = 0 then
      { blankView with
          needsFlush := true, flushed := true, isEditable := false,
          storeKeys := some [1], changed := some [(Origin.store, ⟨[], [], [9]⟩)] }
    else blankView,
    events := [] }

/-- The merge of the C8 counterexample: the updated key 9 now matches and is
appended. -/
def mergeC8 : MergeFn := fun _ _ _ => ⟨[1, 9], [9], [], []⟩

/-- The merge function of the C7 witness: view 0 gains key 2. -/
def mergeC7 : MergeFn := fun v _ _ =>
  if v = 0 then ⟨[1, 2], [2], [], []⟩ else ⟨[], [], [], []⟩

/-- The world of the C7 witness: parent view 0 with registered child 1, the
child scoped from the parent. -/
def worldC7 : World :=
  { views := fun i =>
      if i = 0 then
        { blankView with
            needsFlush := true, flushed := true,
            nested := some [1], storeKeys := some [1],
            changed := some [(Origin.store, ⟨[], [], [2]⟩)] }
      else if i = 1 then
        { blankView with
            needsFlush := true, scope := some [0], storeKeys := some [] }
      else blankView,
    events := [] }

/-- The world of the C5 example: view 0 has parent 10 and nested children 1
and 2, and holds one store key. -/
def worldC5 : World :=
  { views := fun i =>
      if i = 0 then
        { blankView with
            scope := some [10], nested := some [1, 2], storeKeys := some [5] }
      else if i = 1 then { blankView with scope := some [0] }
      else if i = 2 then { blankView with scope := some [0] }
      else if i = 10 then { blankView with nested := some [0] }
      else blankView,
    events := [] }

/-- The ordering the claim asserts: every destruction of a registered child
appears in the event log strictly before every deregistration of the view
from one of its parents. -/
def childrenDestroyedBeforeDereg (v : Nat) (ps cs : List Nat)
    (evs : List DEvent) : Prop :=
  ∀ i, i < evs.length → ∀ j, j < evs.length →
    (∃ c ∈ cs, evs.get? i = some (DEvent.storeDetach c)) →
    (∃ p ∈ ps, evs.get? j = some (DEvent.dereg p v)) → i < j

/-! Claim C10: store-origin change batches only ever accumulate updated
keys; their added and deleted sets stay empty in every reachable state. -/
/-- The invariant on a single batch of store origin. -/
def batchOK (b : ChangeBatch) : Prop := b.added = [] ∧ b.deleted = []

/-- The invariant on the accumulated batch dictionary of one view. -/
def changedOK (c : Option Batches) : Prop :=
  ∀ b, lookupBatch (c.getD []) Origin.store = some b → batchOK b

/-- The C10 invariant: in every view, the batch of store origin has empty
added and deleted sets. -/
def StoreInv (w : World) : Prop := ∀ v, changedOK ((w.views v).changed)

/-- An initial world: no view has accumulated any change batch yet. -/
def InitWorld (w : World) : Prop := ∀ v, (w.views v).changed = none

/-- One step of the record array machinery: any of its public or
store-driven operations, on any view, with any arguments. -/
inductive Step : World → World → Prop
  | storeChanged (fuel : Nat) (w : World) (v : Nat) (keys : List Nat) (ct : Bool) :
      Step w (storeDidChangeStoreKeys fuel w v keys ct)
  | parentChanged (w : World) (v : Nat) (a d u : List Nat) (p : Nat) :
      Step w (parentDidChangeStoreKeys w v a d u p)
  | becameDirty (fuel : Nat) (w : World) (v : Nat) :
      Step w (parentDidBecomeDirty fuel w v)
  | flushStep (fuel : Nat) (m : MergeFn) (force : Bool) (w : World) (v : Nat) :
      Step w (flush fuel m force w v)
  | flushLeafs (fuel : Nat) (m : MergeFn) (w : World) (v : Nat) :
      Step w (flushFromLeafs fuel m w v)
  | enableStep (fuel : Nat) (m : MergeFn) (w : World) (v : Nat) :
      Step w (enable fuel m w v)
  | disableStep (w : World) (v : Nat) :
      Step w (disable w v)
  | registered (w : World) (v c : Nat) :
      Step w (registerNestedRecordArray w v c)
  | willDestroy (w : World) (v r : Nat) :
      Step w (recordArrayWillDestroy w v r)
  | destroyStep (fuel : Nat) (w : World) (v : Nat) :
      Step w (destroy fuel w v)
  | replaced (fuel : Nat) (m : MergeFn) (w : World) (v : Nat)
      (idx amt : Nat) (recs : List Nat) :
      Step w (replace fuel m w v idx amt recs).1
  | indexed (fuel : Nat) (m : MergeFn) (w : World) (v : Nat)
      (arg : JsArg) (startAt : Nat) :
      Step w (indexOf fuel m w v arg startAt).1
  | lastIndexed (fuel : Nat) (m : MergeFn) (w : World) (v : Nat)
      (arg : JsArg) (startAt : Nat) :
      Step w (lastIndexOf fuel m w v arg startAt).1

/-- The all-blank initial world of the C10 witness. -/
def worldInit : World := { views := fun _ => blankView, events := [] }

example : findDifferences (some [1, 2, 3]) [1, 4, 3] = some (1, 1) := by decide

example : findDifferences (some [1, 2, 3]) [1, 2, 3] = none := by decide

example : findDifferences none [5, 6] = some (0, 2) := by decide

example : findDifferences none [] = none := by decide

example : findDifferences (some []) [7] = some (0, 1) := by decide

example : findDifferences (some [1, 2]) [1, 2, 3] = some (2, 1) := by decide

example : findDifferences (some [1, 2, 3]) [1, 2] = some (2, 1) := by decide

example : findDifferences (some [1, 2, 3]) [1, 3] = some (1, 1) := by decide

example : spliceRange [1, 2, 3] 1 1 [1, 3] = [1, 3, 3] := by decide

/-! Properties of the forward scan. -/
theorem fwdScan_ge (o n : List Nat) :
    ∀ fuel i, i ≤ fwdScan o n fuel i := by
  intro fuel
  induction fuel with
  | zero => intro i; simp [fwdScan]
  | succ f ih =>
    intro i
    simp only [fwdScan]
    split
    · exact Nat.le_trans (Nat.le_succ i) (ih (i + 1))
    · exact Nat.le_refl i

theorem fwdScan_le (o n : List Nat) :
    ∀ fuel i, i ≤ n.length → fwdScan o n fuel i ≤ n.length := by
  intro fuel
  induction fuel with
  | zero => intro i hi; simpa [fwdScan] using hi
  | succ f ih =>
    intro i hi
    simp only [fwdScan]
    split
    next h => exact ih (i + 1) h.2
    next => exact hi

theorem fwdScan_matches (o n : List Nat) :
    ∀ fuel i j, i ≤ j → j < fwdScan o n fuel i → o.get? j = n.get? j := by
  intro fuel
  induction fuel with
  | zero =>
    intro i j hij hj
    simp only [fwdScan] at hj
    omega
  | succ f ih =>
    intro i j hij hj
    simp only [fwdScan] at hj
    split at hj
    next h =>
      rcases Nat.eq_or_lt_of_le hij with rfl | hlt
      · exact h.1
      · exact ih (i + 1) j hlt hj
    next => omega

theorem fwdScan_stop (o n : List Nat) :
    ∀ fuel i, n.length < fuel + i →
      ¬(o.get? (fwdScan o n fuel i) = n.get? (fwdScan o n fuel i) ∧
        fwdScan o n fuel i < n.length) := by
  intro fuel
  induction fuel with
  | zero =>
    intro i hfuel
    simp only [fwdScan]
    omega
  | succ f ih =>
    intro i hfuel
    simp only [fwdScan]
    split
    next => exact ih (i + 1) (by omega)
    next h => simpa using h

/-! Properties of the backward scan. -/
theorem bwdScan_le (o n : List Nat) (s : Nat) :
    ∀ fuel e, bwdScan o n s fuel e ≤ e := by
  intro fuel
  induction fuel with
  | zero => intro e; simp [bwdScan]
  | succ f ih =>
    intro e
    simp only [bwdScan]
    split
    · exact le_trans (ih (e - 1)) (by omega)
    · exact le_refl e

theorem bwdScan_ge (o n : List Nat) (s : Nat) :
    ∀ fuel e, (s : Int) ≤ e → (s : Int) ≤ bwdScan o n s fuel e := by
  intro fuel
  induction fuel with
  | zero => intro e he; simpa [bwdScan] using he
  | succ f ih =>
    intro e he
    simp only [bwdScan]
    split
    next h => exact ih (e - 1) (by omega)
    next => exact he

theorem bwdScan_matches (o n : List Nat) (s : Nat) :
    ∀ fuel e (j : Int), bwdScan o n s fuel e < j → j ≤ e →
      jsGet o j = jsGet n j := by
  intro fuel
  induction fuel with
  | zero =>
    intro e j hj hje
    simp only [bwdScan] at hj
    omega
  | succ f ih =>
    intro e j hj hje
    simp only [bwdScan] at hj
    split at hj
    next h =>
      rcases eq_or_lt_of_le hje with rfl | hlt
      · exact h.1
      · exact ih (e - 1) j hj (by omega)
    next => omega

theorem bwdScan_stop (o n : List Nat) (s : Nat) :
    ∀ (fuel : Nat) (e : Int), e - s < (fuel : Int) →
      ¬(jsGet o (bwdScan o n s fuel e) = jsGet n (bwdScan o n s fuel e) ∧
        (s : Int) < bwdScan o n s fuel e) := by
  intro fuel
  induction fuel with
  | zero =>
    intro e hfuel
    simp only [bwdScan]
    omega
  | succ f ih =>
    intro e hfuel
    simp only [bwdScan]
    split
    next h => exact ih (e - 1) (by omega)
    next h => simpa using h

/-! Helper list lemmas for the diff correctness proofs. -/
theorem jsGet_natCast (l : List Nat) (n : Nat) : jsGet l (n : Int) = l.get? n := by
  simp [jsGet]

theorem take_eq_of_get?_eq :
    ∀ (s : Nat) (a b : List Nat), (∀ j, j < s → a.get? j = b.get? j) →
      a.take s = b.take s := by
  intro s
  induction s with
  | zero => intro a b _; simp
  | succ t ih =>
    intro a b h
    cases a with
    | nil =>
      cases b with
      | nil => rfl
      | cons y ys => simpa using h 0 (Nat.succ_pos t)
    | cons x xs =>
      cases b with
      | nil => simpa using h 0 (Nat.succ_pos t)
      | cons y ys =>
        have h0 : x = y := by simpa using h 0 (Nat.succ_pos t)
        have ht : xs.take t = ys.take t :=
          ih xs ys (fun j hj => by simpa using h (j + 1) (by omega))
        simp [h0, ht]

theorem drop_eq_of_get?_eq (a b : List Nat) (s : Nat)
    (h : ∀ j, s ≤ j → a.get? j = b.get? j) : a.drop s = b.drop s := by
  apply List.ext
  intro i
  rw [List.get?_drop, List.get?_drop]
  exact h (s + i) (Nat.le_add_right s i)

theorem list_eq_of_get?_eq_below (o n : List Nat) (hlen : o.length = n.length)
    (h : ∀ j, j < n.length → o.get? j = n.get? j) : o = n := by
  apply List.ext
  intro j
  by_cases hj : j < n.length
  · exact h j hj
  · rw [List.get?_eq_none.mpr (by omega), List.get?_eq_none.mpr (by omega)]

/-- If the test oldStoreKeys === storeKeys fails but the scans pass the whole
new array, the two arrays are in fact element-wise equal. -/
theorem eq_of_full_fwdScan (o n : List Nat)
    (hs : fwdScan o n (n.length + 1) 0 = n.length)
    (hol : o.length ≤ n.length) : o = n := by
  have hmatch : ∀ j, j < n.length → o.get? j = n.get? j := by
    intro j hj
    exact fwdScan_matches o n (n.length + 1) 0 j (Nat.zero_le j) (by omega)
  have hlen : o.length = n.length := by
    by_contra hne
    have hlt : o.length < n.length := by omega
    have h1 : o.get? o.length = none := List.get?_eq_none.mpr (le_refl _)
    have h2 := hmatch o.length hlt
    rw [h1] at h2
    have h3 : n.length ≤ o.length := List.get?_eq_none.mp h2.symm
    omega
  exact list_eq_of_get?_eq_below o n hlen hmatch

/-- The null return of _findDifferences characterised: null exactly when the
old array is absent and the new array empty, or the two arrays are
element-wise equal (reference identity implies element-wise equality). -/
theorem findDifferences_eq_none_iff (old : Option (List Nat)) (nw : List Nat) :
    findDifferences old nw = none ↔
      (match old with | none => nw = [] | some o => o = nw) := by
  cases old with
  | none => simp [findDifferences, List.length_eq_zero]
  | some o =>
    by_cases ho : o = nw
    · simp [findDifferences, ho]
    · simp only [findDifferences, if_neg ho]
      constructor
      · intro h
        exfalso
        set s := fwdScan o nw (nw.length + 1) 0 with hs
        have hsle : s ≤ nw.length := fwdScan_le o nw _ 0 (Nat.zero_le _)
        have hmax : (if o.length > nw.length then o.length else nw.length) ≤ s := by
          by_contra hc
          push_neg at hc
          rw [if_pos hc] at h
          exact absurd h (by simp)
        have hnle : nw.length ≤ s := by
          by_cases hcase : o.length > nw.length <;> simp [hcase] at hmax <;> omega
        have hseq : s = nw.length := le_antisymm hsle hnle
        have holen : o.length ≤ nw.length := by
          by_cases hcase : o.length > nw.length
          · simp [hcase] at hmax; omega
          · omega
        exact ho (eq_of_full_fwdScan o nw hseq holen)
      · intro h; exact absurd h ho

/-- C1 counterexample input: old [1,2,3] and new [1,3].  The diff is the
range [1,2) but splicing the slice of the new array at that range into the
old array yields [1,3,3], not [1,3]. -/
theorem findDifferences_splice_cex :
    findDifferences (some [1, 2, 3]) [1, 3] = some (1, 1) ∧
    spliceRange [1, 2, 3] 1 1 [1, 3] ≠ [1, 3] := by decide

/-- Splice correctness of the returned range, in the cases in which it does
hold: old absent, old empty, or old of the same length as new. -/
theorem findDifferences_splice (old : Option (List Nat)) (nw : List Nat)
    (start count : Nat)
    (h : findDifferences old nw = some (start, count))
    (hlen : ∀ o, old = some o → o = [] ∨ o.length = nw.length) :
    spliceRange (old.getD []) start count nw = nw := by
  cases old with
  | none =>
    simp only [findDifferences] at h
    split at h
    next => exact absurd h (by simp)
    next hne =>
      have h1 : start = 0 ∧ count = nw.length := by
        constructor <;> injection h with h2 <;> injection h2 <;> omega
      obtain ⟨rfl, rfl⟩ := h1
      simp [spliceRange]
  | some o =>
    by_cases ho : o = nw
    · rw [findDifferences, if_pos ho] at h
      exact absurd h (by simp)
    · rcases hlen o rfl with hoe | hoeq
      · -- old is the empty array: the full range [0, new.length) is returned
        subst hoe
        have hnwne : nw ≠ [] := fun hn => ho (by rw [hn])
        have hL : 1 ≤ nw.length := by
          cases nw with
          | nil => exact absurd rfl hnwne
          | cons x xs => simp
        have hg0 : nw.get? 0 ≠ none := by
          intro hnone
          have := List.get?_eq_none.mp hnone
          omega
        have hsz : fwdScan [] nw (nw.length + 1) 0 = 0 := by
          cases hfl : nw.length + 1 with
          | zero => omega
          | succ f =>
            simp only [fwdScan]
            rw [if_neg]
            rintro ⟨h1, -⟩
            exact hg0 (h1.symm.trans rfl)
        have hbz : bwdScan [] nw 0 (nw.length + 1) ((nw.length : Int) - 1) =
            (nw.length : Int) - 1 := by
          cases hfl : nw.length + 1 with
          | zero => omega
          | succ f =>
            simp only [bwdScan]
            rw [if_neg]
            rintro ⟨h1, -⟩
            have : jsGet nw ((nw.length : Int) - 1) = nw.get? (nw.length - 1) := by
              have : ((nw.length : Int) - 1) = ((nw.length - 1 : Nat) : Int) := by omega
              rw [this, jsGet_natCast]
            rw [this] at h1
            have hnone : nw.get? (nw.length - 1) = none := by
              rw [← h1]; simp [jsGet]
            rw [List.get?_eq_none] at hnone
            omega
        rw [findDifferences, if_neg ho] at h
        simp only [hsz, hbz] at h
        rw [if_pos (by simp; omega)] at h
        rw [if_pos (by omega)] at h
        have h1 : start = 0 ∧ count = ((nw.length : Int) - 1 - 0 + 1).toNat := by
          constructor <;> injection h with h2 <;> injection h2 <;> omega
        obtain ⟨rfl, rfl⟩ := h1
        have hc : ((nw.length : Int) - 1 - 0 + 1).toNat = nw.length := by omega
        rw [hc]
        simp [spliceRange]
      · -- old and new have the same length
        have hLpos : 1 ≤ nw.length := by
          rcases Nat.eq_zero_or_pos nw.length with h0 | h1
          · exact absurd ((List.length_eq_zero.mp (by omega)).trans
              (List.length_eq_zero.mp h0).symm) ho
          · exact h1
        simp only [findDifferences, if_neg ho] at h
        rw [if_neg (show ¬ o.length > nw.length by omega)] at h
        set L := nw.length with hLdef
        set s := fwdScan o nw (L + 1) 0 with hsdef
        set e := bwdScan o nw s (L + 1) ((L : Int) - 1) with hedef
        have hsle : s ≤ L := fwdScan_le o nw _ 0 (Nat.zero_le _)
        have hsne : s ≠ L := by
          intro hsL
          exact ho (eq_of_full_fwdScan o nw hsL (le_of_eq hoeq))
        have hslt : s < L := lt_of_le_of_ne hsle hsne
        have hele : e ≤ (L : Int) - 1 := bwdScan_le o nw s _ _
        have hege : (s : Int) ≤ e := bwdScan_ge o nw s _ _ (by omega)
        rw [if_pos hslt, if_pos hege] at h
        have h1 : start = s ∧ count = (e - (s : Int) + 1).toNat := by
          constructor <;> injection h with h2 <;> injection h2 <;> omega
        obtain ⟨rfl, rfl⟩ := h1
        have hcount : (e - (s : Int) + 1).toNat = e.toNat - s + 1 := by omega
        have heN : (e.toNat : Int) = e := by omega
        have hsum : s + (e.toNat - s + 1) = e.toNat + 1 := by omega
        -- prefix of length s agrees
        have hpre : o.take s = nw.take s :=
          take_eq_of_get?_eq s o nw
            (fun j hj => fwdScan_matches o nw (L + 1) 0 j (Nat.zero_le _) hj)
        -- suffix from e + 1 on agrees
        have hsuf : o.drop (e.toNat + 1) = nw.drop (e.toNat + 1) := by
          apply drop_eq_of_get?_eq
          intro j hj
          by_cases hjL : j < L
          · have hm := bwdScan_matches o nw s (L + 1) ((L : Int) - 1) (j : Int)
              (by omega) (by omega)
            rwa [jsGet_natCast, jsGet_natCast] at hm
          · rw [List.get?_eq_none.mpr (by omega), List.get?_eq_none.mpr (by omega)]
        rw [hcount]
        unfold spliceRange
        simp only [Option.getD_some]
        rw [hsum, hpre, hsuf, ← List.take_add]
        rw [hsum, List.take_append_drop]

/-- C1 (amended): _findDifferences returns none exactly when the two key
sequences are identical by reference or element-wise equal, with an absent
or empty old sequence yielding the full range [0, len(new)) when new is
non-empty and none otherwise; and whenever it returns a range, if old is
absent or empty or has the same length as new, replacing the slice of old
at that range with the slice of new at the same range reproduces new
exactly.  (The splice property fails in general when the lengths differ;
see the counterexample.) -/
theorem C1_findDifferences_amended (old : Option (List Nat)) (nw : List Nat) :
    (findDifferences old nw = none ↔
      (match old with | none => nw = [] | some o => o = nw)) ∧
    (findDifferences none nw =
      (if nw = [] then none else some (0, nw.length))) ∧
    (∀ start count, findDifferences old nw = some (start, count) →
      (∀ o, old = some o → o = [] ∨ o.length = nw.length) →
      spliceRange (old.getD []) start count nw = nw) := by
  refine ⟨findDifferences_eq_none_iff old nw, ?_, ?_⟩
  · simp only [findDifferences]
    by_cases hnw : nw = []
    · simp [hnw]
    · simp [hnw, List.length_eq_zero]
  · intro start count h hlen
    exact findDifferences_splice old nw start count h hlen

/-- Witness for C1: a concrete instantiation of the amended theorem. -/
theorem C1_findDifferences_amended_witness :
    (findDifferences (some [1, 2]) [1, 5] = none ↔ ([1, 2] : List Nat) = [1, 5]) ∧
    spliceRange [1, 2] 1 1 [1, 5] = [1, 5] := by
  refine ⟨(C1_findDifferences_amended (some [1, 2]) [1, 5]).1, ?_⟩
  exact (C1_findDifferences_amended (some [1, 2]) [1, 5]).2.2 1 1 (by decide)
    (by rintro o ho; injection ho with h; right; rw [← h]; decide)

theorem setView_views_self (w : World) (v : Nat) (s : ViewState) :
    (w.setView v s).views v = s := by
  simp [World.setView]

theorem setView_views_other (w : World) (v : Nat) (s : ViewState) (u : Nat)
    (h : u ≠ v) : (w.setView v s).views u = w.views u := by
  simp [World.setView, h]

/-- C2 counterexample: the content-changed notification fired by the example
flush is (start 1, removed 2, added 2), not (start 1, removed 1, added 1) as
the claim states. -/
theorem C2_notification_cex :
    ((flush 1 mergeC2 false worldC2 0).views 0).notifications = [(1, 2, 2)] ∧
    ((flush 1 mergeC2 false worldC2 0).views 0).notifications ≠ [(1, 1, 1)] := by
  decide

/-- C2 (amended): flushing the result set [k1,k2,k3] against merge result
[k1,k4,k3] yields the diff range [1,2), invalidates exactly cache index 1,
and fires exactly one content-changed notification with start index 1,
removed count 2 and added count 2: the notification spans from the first
difference to the end of the old and new sequences respectively, not just
the diffed range. -/
theorem C2_flush_example_amended :
    findDifferences (some [1, 2, 3]) [1, 4, 3] = some (1, 1) ∧
    ((flush 1 mergeC2 false worldC2 0).views 0).storeKeys = some [1, 4, 3] ∧
    ((flush 1 mergeC2 false worldC2 0).views 0).records =
      some [some 1, none, some 3] ∧
    ((flush 1 mergeC2 false worldC2 0).views 0).notifications = [(1, 2, 2)] := by
  decide

/-! Claim C4: the reentrancy guard. -/
/-- C4: a flush entered while _insideFlush is set returns the world
unchanged: merge is not invoked (the result does not depend on the merge
function), storeKeys, the cache and needsFlush are all untouched. -/
theorem C4_flush_reentrant (fuel : Nat) (m : MergeFn) (force : Bool)
    (w : World) (v : Nat) (h : (w.views v).insideFlush = true) :
    flush fuel m force w v = w := by
  cases fuel with
  | zero => rfl
  | succ f =>
    simp only [flush]
    by_cases h1 : (w.views v).needsFlush = false ∧ force = false
    · rw [if_pos h1]
    · rw [if_neg h1]
      by_cases h2 : (w.views v).enabled = false
      · rw [if_pos h2]
      · rw [if_neg h2, if_pos h]

theorem C4_flush_reentrant_witness :
    (worldC4.views 0).insideFlush = true ∧
    flush 5 mergeNull true worldC4 0 = worldC4 :=
  ⟨rfl, C4_flush_reentrant 5 mergeNull true worldC4 0 rfl⟩

/-! Claim C3: flush idempotence.  The key facts: a flush never raises the
needsFlush flag of any view, and a completed flush has cleared its own. -/
/-- A flush on a clean view (needsFlush clear, no force) returns the world
unchanged. -/
theorem flush_noop (fuel : Nat) (m : MergeFn) (w : World) (v : Nat)
    (h : (w.views v).needsFlush = false) : flush fuel m false w v = w := by
  cases fuel with
  | zero => rfl
  | succ f => simp [flush, h]

/-- Internal form of the reentrancy guard: a flush on a view already inside
a flush returns the world unchanged. -/
theorem flush_insideFlush_noop (fuel : Nat) (m : MergeFn) (force : Bool)
    (w : World) (v : Nat) (h : (w.views v).insideFlush = true) :
    flush fuel m force w v = w := by
  cases fuel with
  | zero => rfl
  | succ f =>
    simp only [flush]
    by_cases h1 : (w.views v).needsFlush = false ∧ force = false
    · rw [if_pos h1]
    · rw [if_neg h1]
      by_cases h2 : (w.views v).enabled = false
      · rw [if_pos h2]
      · rw [if_neg h2, if_pos h]

theorem notify_needsFlush (vs : ViewState) (old : Option (List Nat))
    (nw : List Nat) (ds : Nat × Nat) :
    (notifyStoreKeyChanges vs old nw ds).needsFlush = vs.needsFlush := by
  simp only [notifyStoreKeyChanges]
  split <;> rfl

theorem PDCS_needsFlush (w : World) (c : Nat) (a d upd : List Nat) (p u : Nat) :
    ((parentDidChangeStoreKeys w c a d upd p).views u).needsFlush
      = (w.views u).needsFlush := by
  simp only [parentDidChangeStoreKeys]
  split
  · rfl
  · by_cases hu : u = c
    · subst hu; rw [setView_views_self]
    · rw [setView_views_other _ _ _ _ hu]

theorem foldl_PDCS_needsFlush (qa qd qu : List Nat) (p : Nat) :
    ∀ (ns : List Nat) (w : World) (u : Nat),
      ((ns.foldl (fun acc c => parentDidChangeStoreKeys acc c qa qd qu p) w).views u).needsFlush
        = (w.views u).needsFlush := by
  intro ns
  induction ns with
  | nil => intro w u; rfl
  | cons x rest ih =>
    intro w u
    rw [List.foldl_cons, ih, PDCS_needsFlush]

theorem mergeStep_needsFlush (m : MergeFn) (force : Bool) (v : Nat)
    (vs : ViewState) : (mergeStep m force v vs).1.needsFlush = vs.needsFlush := by
  simp only [mergeStep]
  split
  next => rw [notify_needsFlush]
  next => rfl

theorem mergePhase_needsFlush (m : MergeFn) (force : Bool) (w : World) (v u : Nat) :
    ((flushMergePhase m force w v).views u).needsFlush = (w.views u).needsFlush := by
  by_cases hu : u = v
  · subst hu
    simp only [flushMergePhase]
    split
    · split
      next ns heq =>
        rw [foldl_PDCS_needsFlush, setView_views_self, mergeStep_needsFlush]
      next heq =>
        rw [setView_views_self, mergeStep_needsFlush]
    · rfl
  · simp only [flushMergePhase]
    split
    · split
      next ns heq => rw [foldl_PDCS_needsFlush, setView_views_other _ _ _ _ hu]
      next heq => rw [setView_views_other _ _ _ _ hu]
    · rfl

theorem setView_insideFlush_needsFlush (w : World) (v u : Nat) (b : Bool) :
    ((w.setView v { w.views v with insideFlush := b }).views u).needsFlush
      = (w.views u).needsFlush := by
  by_cases hu : u = v
  · subst hu; rw [setView_views_self]
  · rw [setView_views_other _ _ _ _ hu]

theorem setView_needsFlushFalse_mono (w : World) (v u : Nat)
    (h : ((w.setView v { w.views v with needsFlush := false }).views u).needsFlush
      = true) : (w.views u).needsFlush = true := by
  by_cases hu : u = v
  · subst hu; rw [setView_views_self] at h; exact absurd h (by simp)
  · rwa [setView_views_other _ _ _ _ hu] at h

/-- A flush never raises the needsFlush flag of any view: flushing only
clears dirtiness and forwards change batches. -/
theorem flush_needsFlush_mono :
    ∀ (fuel : Nat) (m : MergeFn) (force : Bool) (w : World) (v u : Nat),
      ((flush fuel m force w v).views u).needsFlush = true →
      (w.views u).needsFlush = true := by
  intro fuel
  induction fuel with
  | zero => intro m force w v u h; exact h
  | succ f ih =>
    intro m force w v u h
    have hfold : ∀ (ps : List Nat) (w0 : World),
        ((ps.foldl (fun acc p => flush f m false acc p) w0).views u).needsFlush = true →
        (w0.views u).needsFlush = true := by
      intro ps
      induction ps with
      | nil => intro w0 hh; exact hh
      | cons x rest ihp =>
        intro w0 hh
        rw [List.foldl_cons] at hh
        exact ih m false w0 x u (ihp (flush f m false w0 x) hh)
    simp only [flush] at h
    split at h
    next => exact h
    next =>
      split at h
      next => exact h
      next =>
        split at h
        next => exact h
        next =>
          split at h
          next => exact setView_needsFlushFalse_mono w v u h
          next =>
            rw [setView_insideFlush_needsFlush, mergePhase_needsFlush] at h
            split at h
            next ps heq =>
              have h2 := hfold ps _ h
              rw [setView_insideFlush_needsFlush] at h2
              exact setView_needsFlushFalse_mono w v u h2
            next =>
              rw [setView_insideFlush_needsFlush] at h
              exact setView_needsFlushFalse_mono w v u h

theorem foldl_flush_keeps_needsFlush_false (f : Nat) (m : MergeFn)
    (ps : List Nat) (w : World) (u : Nat)
    (h : (w.views u).needsFlush = false) :
    ((ps.foldl (fun acc p => flush f m false acc p) w).views u).needsFlush
      = false := by
  cases hres : ((ps.foldl (fun acc p => flush f m false acc p) w).views u).needsFlush
  · rfl
  · exfalso
    have hfold : ∀ (qs : List Nat) (w0 : World),
        ((qs.foldl (fun acc p => flush f m false acc p) w0).views u).needsFlush = true →
        (w0.views u).needsFlush = true := by
      intro qs
      induction qs with
      | nil => intro w0 hh; exact hh
      | cons x rest ihp =>
        intro w0 hh
        rw [List.foldl_cons] at hh
        exact flush_needsFlush_mono f m false w0 x u (ihp (flush f m false w0 x) hh)
    have := hfold ps w hres
    rw [h] at this
    exact Bool.noConfusion this

/-- A flush that actually runs (dirty or forced, enabled, not reentrant)
leaves its own needsFlush flag cleared. -/
theorem flush_clears_needsFlush (fuel : Nat) (m : MergeFn) (force : Bool)
    (w : World) (v : Nat)
    (hnf : ¬((w.views v).needsFlush = false ∧ force = false))
    (hen : (w.views v).enabled = true)
    (hin : (w.views v).insideFlush = false) :
    ((flush (fuel + 1) m force w v).views v).needsFlush = false := by
  simp only [flush]
  rw [if_neg hnf, if_neg (by simp [hen]), if_neg (by simp [hin])]
  split
  next =>
    rw [setView_views_self]
  next =>
    rw [setView_insideFlush_needsFlush, mergePhase_needsFlush]
    split
    next ps heq =>
      apply foldl_flush_keeps_needsFlush_false
      rw [setView_insideFlush_needsFlush, setView_views_self]
    next =>
      rw [setView_insideFlush_needsFlush, setView_views_self]

/-- C3: for an enabled view, a second flush immediately after a first one,
with no change batch recorded in between, is a no-op: it returns the world
of the first flush unchanged (before invoking merge and independently of the
merge function), so storeKeys, the record cache and the notification log are
untouched. -/
theorem C3_flush_idempotent (fuel fuel2 : Nat) (m m2 : MergeFn) (w : World)
    (v : Nat) (he : (w.views v).enabled = true) :
    flush fuel2 m2 false (flush (fuel + 1) m false w v) v
      = flush (fuel + 1) m false w v := by
  by_cases hnf : (w.views v).needsFlush = false
  · rw [flush_noop (fuel + 1) m w v hnf, flush_noop fuel2 m2 w v hnf]
  · by_cases hin : (w.views v).insideFlush = true
    · rw [flush_insideFlush_noop (fuel + 1) m false w v hin,
        flush_insideFlush_noop fuel2 m2 false w v hin]
    · apply flush_noop
      apply flush_clears_needsFlush
      · intro hc; exact hnf hc.1
      · exact he
      · cases h2 : (w.views v).insideFlush
        · rfl
        · exact absurd h2 hin

/-- Witness for C3 at the concrete C2 world, whose view 0 is enabled. -/
theorem C3_flush_idempotent_witness :
    (worldC2.views 0).enabled = true ∧
    flush 3 mergeNull false (flush 1 mergeC2 false worldC2 0) 0
      = flush 1 mergeC2 false worldC2 0 :=
  ⟨rfl, C3_flush_idempotent 0 3 mergeC2 mergeNull worldC2 0 rfl⟩

theorem pDBD_nested : ∀ (fuel : Nat) (w : World) (v u : Nat),
    ((parentDidBecomeDirty fuel w v).views u).nested = (w.views u).nested := by
  intro fuel
  induction fuel with
  | zero => intro w v u; rfl
  | succ f ih =>
    intro w v u
    simp only [parentDidBecomeDirty]
    have hset : ∀ x,
        ((w.setView v { w.views v with needsFlush := true }).views x).nested
          = (w.views x).nested := by
      intro x
      by_cases hx : x = v
      · subst hx; rw [setView_views_self]
      · rw [setView_views_other _ _ _ _ hx]
    split
    next ns heq =>
      have hfold : ∀ (l : List Nat) (w0 : World) (x : Nat),
          ((l.foldl (fun acc c => parentDidBecomeDirty f acc c) w0).views x).nested
            = (w0.views x).nested := by
        intro l
        induction l with
        | nil => intro w0 x; rfl
        | cons y rest ihl =>
          intro w0 x
          rw [List.foldl_cons, ihl, ih]
      rw [hfold, hset]
    next => rw [hset]

theorem pDBD_keeps_true : ∀ (fuel : Nat) (w : World) (v u : Nat),
    (w.views u).needsFlush = true →
    ((parentDidBecomeDirty fuel w v).views u).needsFlush = true := by
  intro fuel
  induction fuel with
  | zero => intro w v u h; exact h
  | succ f ih =>
    intro w v u h
    simp only [parentDidBecomeDirty]
    have hset : ((w.setView v { w.views v with needsFlush := true }).views u).needsFlush
        = true := by
      by_cases hx : u = v
      · subst hx; rw [setView_views_self]
      · rw [setView_views_other _ _ _ _ hx]; exact h
    split
    next ns heq =>
      have hfold : ∀ (l : List Nat) (w0 : World) (x : Nat),
          (w0.views x).needsFlush = true →
          ((l.foldl (fun acc c => parentDidBecomeDirty f acc c) w0).views x).needsFlush
            = true := by
        intro l
        induction l with
        | nil => intro w0 x hh; exact hh
        | cons y rest ihl =>
          intro w0 x hh
          rw [List.foldl_cons]
          exact ihl _ x (ih w0 y x hh)
      exact hfold ns _ u hset
    next => exact hset

theorem DescAt_transfer (w w2 : World)
    (h : ∀ x, (w2.views x).nested = (w.views x).nested) :
    ∀ {d v c}, DescAt w v c d → DescAt w2 v c d := by
  intro d
  induction d with
  | zero => intro v c hD; exact hD
  | succ d2 ih =>
    intro v c hD
    simp only [DescAt] at hD ⊢
    obtain ⟨u, hmem, hDu⟩ := hD
    refine ⟨u, ?_, ih hDu⟩
    unfold nestedOf at hmem ⊢
    rw [h v]
    exact hmem

/-- parentDidBecomeDirty marks every descendant within the fuel bound as
needing a flush. -/
theorem pDBD_sets_descendants : ∀ (fuel : Nat) (w : World) (v c d : Nat),
    DescAt w v c d → d < fuel →
    ((parentDidBecomeDirty fuel w v).views c).needsFlush = true := by
  intro fuel
  induction fuel with
  | zero => intro w v c d _ hd; omega
  | succ f ih =>
    intro w v c d hD hd
    cases d with
    | zero =>
      have hvc : v = c := hD
      subst hvc
      simp only [parentDidBecomeDirty]
      have hset : ((w.setView v { w.views v with needsFlush := true }).views v).needsFlush
          = true := by rw [setView_views_self]
      split
      next ns heq =>
        have hfold : ∀ (l : List Nat) (w0 : World) (x : Nat),
            (w0.views x).needsFlush = true →
            ((l.foldl (fun acc c => parentDidBecomeDirty f acc c) w0).views x).needsFlush
              = true := by
          intro l
          induction l with
          | nil => intro w0 x hh; exact hh
          | cons y rest ihl =>
            intro w0 x hh
            rw [List.foldl_cons]
            exact ihl _ x (pDBD_keeps_true f w0 y x hh)
        exact hfold ns _ v hset
      next => exact hset
    | succ d2 =>
      simp only [DescAt] at hD
      obtain ⟨u, hmem, hDu⟩ := hD
      have hd2 : d2 < f := by omega
      have hns : ∃ ns, (w.views v).nested = some ns ∧ u ∈ ns := by
        cases hn : (w.views v).nested with
        | none =>
          unfold nestedOf at hmem
          rw [hn] at hmem
          simp at hmem
        | some ns =>
          unfold nestedOf at hmem
          rw [hn] at hmem
          exact ⟨ns, rfl, hmem⟩
      obtain ⟨ns, hn, hu⟩ := hns
      simp only [parentDidBecomeDirty]
      have hset : ∀ x,
          ((w.setView v { w.views v with needsFlush := true }).views x).nested
            = (w.views x).nested := by
        intro x
        by_cases hx : x = v
        · subst hx; rw [setView_views_self]
        · rw [setView_views_other _ _ _ _ hx]
      split
      next ns2 heq =>
        have hns2 : ns2 = ns := by
          rw [hset v, hn] at heq
          exact (Option.some_inj.mp heq).symm
        subst hns2
        -- walk the fold to the occurrence of u, apply the induction
        -- hypothesis there, and keep the flag afterwards
        obtain ⟨l1, l2, hsplit⟩ := List.append_of_mem hu
        subst hsplit
        rw [List.foldl_append, List.foldl_cons]
        have hnest1 : ∀ x,
            (((l1.foldl (fun acc c => parentDidBecomeDirty f acc c)
                (w.setView v { w.views v with needsFlush := true })).views x).nested)
              = (w.views x).nested := by
          intro x
          have hfoldn : ∀ (l : List Nat) (w0 : World) (x : Nat),
              ((l.foldl (fun acc c => parentDidBecomeDirty f acc c) w0).views x).nested
                = (w0.views x).nested := by
            intro l
            induction l with
            | nil => intro w0 x; rfl
            | cons y rest ihl =>
              intro w0 x
              rw [List.foldl_cons, ihl, pDBD_nested]
          rw [hfoldn, hset]
        have hDu2 : DescAt (l1.foldl (fun acc c => parentDidBecomeDirty f acc c)
            (w.setView v { w.views v with needsFlush := true })) u c d2 :=
          DescAt_transfer w _ hnest1 hDu
        have hmid := ih _ u c d2 hDu2 hd2
        have hfold : ∀ (l : List Nat) (w0 : World) (x : Nat),
            (w0.views x).needsFlush = true →
            ((l.foldl (fun acc c => parentDidBecomeDirty f acc c) w0).views x).needsFlush
              = true := by
          intro l
          induction l with
          | nil => intro w0 x hh; exact hh
          | cons y rest ihl =>
            intro w0 x hh
            rw [List.foldl_cons]
            exact ihl _ x (pDBD_keeps_true f w0 y x hh)
        exact hfold l2 _ c hmid
      next heq =>
        rw [hset v, hn] at heq
        exact Option.noConfusion heq

/-- C6 counterexample: a parent-origin notification with a non-empty added
set merges the keys into the batch but does not set needsFlush on the
receiving view (nor on anyone else), contradicting the claim for the
parent-origin case. -/
theorem C6_parent_origin_cex :
    ((parentDidChangeStoreKeys worldC6 0 [7] [] [] 1).views 0).needsFlush = false ∧
    lookupBatch (((parentDidChangeStoreKeys worldC6 0 [7] [] [] 1).views 0).changed.getD [])
        (Origin.view 1) = some ⟨[7], [], []⟩ := by
  decide

/-- C6 (amended): a store-origin notification that passes the fast-path
checks (local query, matching record types, non-empty key set) merges the
keys into the store batch and then marks the view and, recursively, every
registered nested view as needing a flush (within the recursion bound);
a parent-origin notification (parentDidChangeStoreKeys) only merges the key
sets into the batch for that parent and leaves every needsFlush flag
unchanged -- nested views are marked dirty only through
parentDidBecomeDirty at store-notification time. -/
theorem C6_dirty_propagation_amended (fuel : Nat) (w : World) (v : Nat)
    (keys : List Nat)
    (hloc : (w.views v).location = QueryLocation.localQ)
    (hk : keys.length ≠ 0) :
    (∀ c d, DescAt w v c d → d < fuel →
      ((storeDidChangeStoreKeys fuel w v keys true).views c).needsFlush = true) ∧
    (∀ (w2 : World) (c : Nat) (a dl u : List Nat) (p x : Nat),
      ((parentDidChangeStoreKeys w2 c a dl u p).views x).needsFlush
        = (w2.views x).needsFlush) := by
  constructor
  · intro c d hD hd
    simp only [storeDidChangeStoreKeys]
    rw [if_neg (by simp [hloc]), if_neg (by simp), if_neg hk]
    apply pDBD_sets_descendants fuel _ v c d _ hd
    apply DescAt_transfer w _ _ hD
    intro x
    by_cases hx : x = v
    · subst hx; rw [setView_views_self]
    · rw [setView_views_other _ _ _ _ hx]
  · intro w2 c a dl u p x
    exact PDCS_needsFlush w2 c a dl u p x

theorem C6_dirty_propagation_amended_witness :
    ((storeDidChangeStoreKeys 2 worldC6 0 [5] true).views 1).needsFlush = true ∧
    ((storeDidChangeStoreKeys 2 worldC6 0 [5] true).views 0).needsFlush = true := by
  constructor
  · exact (C6_dirty_propagation_amended 2 worldC6 0 [5] rfl (by decide)).1 1 1
      (⟨1, by decide, rfl⟩ : DescAt worldC6 0 1 1) (by omega)
  · exact (C6_dirty_propagation_amended 2 worldC6 0 [5] rfl (by decide)).1 0 0
      (rfl : DescAt worldC6 0 0 0) (by omega)

theorem C8_replace_cex :
    (replace 1 mergeC8 worldC8 0 0 0 []).2 = Except.error RAError.notEditable ∧
    ((replace 1 mergeC8 worldC8 0 0 0 []).1.views 0).storeKeys = some [1, 9] ∧
    (worldC8.views 0).storeKeys = some [1] :=
  ⟨rfl, by decide, by decide⟩

/-- C8 (amended): on a view whose storeKeys binding is set and whose query
is not editable, replace raises NOT_EDITABLE synchronously and performs no
replacement; when the view has no pending flush (needsFlush is clear), the
whole world, and in particular the storeKeys sequence, is left unchanged.
(The initial pending-change flush inside replace may still update storeKeys;
see the counterexample.) -/
theorem C8_replace_not_editable (fuel : Nat) (m : MergeFn) (w : World)
    (v : Nat) (idx amt : Nat) (recs : List Nat) (sk : List Nat)
    (hnf : (w.views v).needsFlush = false)
    (hsk : (w.views v).storeKeys = some sk)
    (hed : (w.views v).isEditable = false) :
    replace fuel m w v idx amt recs = (w, Except.error RAError.notEditable) := by
  have hflush : flush fuel m false w v = w := by
    cases fuel with
    | zero => rfl
    | succ f => simp [flush, hnf]
  simp [replace, hflush, hsk, hed]

theorem C8_replace_not_editable_witness :
    ((worldC4.setView 0 { blankView with storeKeys := some [3] }).views 0).needsFlush
        = false ∧
    replace 2 mergeNull (worldC4.setView 0 { blankView with storeKeys := some [3] })
        0 0 1 [7]
      = (worldC4.setView 0 { blankView with storeKeys := some [3] },
         Except.error RAError.notEditable) := by
  refine ⟨by decide, C8_replace_not_editable 2 mergeNull _ 0 0 1 [7] [3] ?_ ?_ ?_⟩
    <;> decide

/-! Claim C7: forwarding merge results from a parent flush into the change
batches of its registered children, and on to the merge of the next child
flush. -/
theorem scadd_mem (s : List Nat) (k x : Nat) :
    x ∈ scadd s k ↔ x ∈ s ∨ x = k := by
  simp only [scadd]
  split
  next h => simp only [iff_self_or]; rintro rfl; exact h
  next h => simp [List.mem_append]

theorem scAddEach_append_of_disjoint :
    ∀ (ks s : List Nat), ks.Nodup → (∀ x ∈ ks, x ∉ s) →
      scAddEach s ks = s ++ ks := by
  intro ks
  induction ks with
  | nil => intro s _ _; simp [scAddEach]
  | cons x rest ih =>
    intro s hnd hdis
    have hx : x ∉ s := hdis x (List.mem_cons_self x rest)
    have hstep : scAddEach s (x :: rest) = scAddEach (s ++ [x]) rest := by
      simp only [scAddEach, List.foldl_cons, scadd, if_neg hx]
    rw [hstep, ih (s ++ [x]) (List.Nodup.of_cons hnd)]
    · simp
    · intro y hy
      rw [List.mem_append]
      rintro (hys | hyx)
      · exact hdis y (List.mem_cons_of_mem x hy) hys
      · rw [List.mem_singleton] at hyx
        subst hyx
        exact (List.nodup_cons.mp hnd).1 hy

theorem scAddEach_nil_nodup (ks : List Nat) (h : ks.Nodup) :
    scAddEach [] ks = ks := by
  rw [scAddEach_append_of_disjoint ks [] h (by intro x _; simp)]
  simp

theorem scAddEach_subset (s ks : List Nat) (h : ∀ x ∈ ks, x ∈ s) :
    scAddEach s ks = s := by
  induction ks generalizing s with
  | nil => rfl
  | cons x rest ih =>
    have hx : x ∈ s := h x (List.mem_cons_self x rest)
    have hstep : scAddEach s (x :: rest) = scAddEach s rest := by
      simp only [scAddEach, List.foldl_cons, scadd, if_pos hx]
    rw [hstep]
    exact ih s (fun y hy => h y (List.mem_cons_of_mem x hy))

theorem lookupBatch_setBatch_self :
    ∀ (bs : Batches) (o : Origin) (b : ChangeBatch),
      lookupBatch (setBatch bs o b) o = some b := by
  intro bs
  induction bs with
  | nil => intro o b; simp [setBatch, lookupBatch]
  | cons p rest ih =>
    intro o b
    obtain ⟨o2, b2⟩ := p
    simp only [setBatch]
    by_cases ho : o2 = o
    · rw [if_pos ho]
      simp [lookupBatch]
    · rw [if_neg ho]
      simp only [lookupBatch, if_neg ho]
      exact ih o b

theorem lookupBatch_setBatch_other :
    ∀ (bs : Batches) (o o2 : Origin) (b : ChangeBatch), o ≠ o2 →
      lookupBatch (setBatch bs o b) o2 = lookupBatch bs o2 := by
  intro bs
  induction bs with
  | nil =>
    intro o o2 b ho
    simp [setBatch, lookupBatch, ho]
  | cons p rest ih =>
    intro o o2 b ho
    obtain ⟨o3, b3⟩ := p
    simp only [setBatch]
    by_cases h3 : o3 = o
    · rw [if_pos h3]
      subst h3
      simp [lookupBatch, ho]
    · rw [if_neg h3]
      simp only [lookupBatch]
      by_cases h32 : o3 = o2
      · rw [if_pos h32, if_pos h32]
      · rw [if_neg h32, if_neg h32]
        exact ih o o2 b ho

theorem PDCS_views_other (w : World) (c : Nat) (a d u : List Nat) (p x : Nat)
    (hx : x ≠ c) :
    (parentDidChangeStoreKeys w c a d u p).views x = w.views x := by
  simp only [parentDidChangeStoreKeys]
  split
  · rfl
  · rw [setView_views_other _ _ _ _ hx]

theorem PDCS_lookup_fresh (w : World) (c : Nat) (a d u : List Nat) (p : Nat)
    (hfresh : lookupBatch ((w.views c).changed.getD []) (Origin.view p) = none)
    (hne : a.length + d.length + u.length ≠ 0)
    (hna : a.Nodup) (hnd : d.Nodup) (hnu : u.Nodup) :
    lookupBatch (((parentDidChangeStoreKeys w c a d u p).views c).changed.getD [])
        (Origin.view p) = some ⟨a, d, u⟩ := by
  simp only [parentDidChangeStoreKeys]
  rw [if_neg hne, setView_views_self]
  simp only [Option.getD_some]
  rw [lookupBatch_setBatch_self, hfresh]
  simp only [Option.getD_none]
  rw [scAddEach_nil_nodup a hna, scAddEach_nil_nodup d hnd,
    scAddEach_nil_nodup u hnu]

theorem PDCS_lookup_stable (w : World) (c : Nat) (a d u : List Nat) (p : Nat)
    (hcur : lookupBatch ((w.views c).changed.getD []) (Origin.view p)
      = some ⟨a, d, u⟩) :
    lookupBatch (((parentDidChangeStoreKeys w c a d u p).views c).changed.getD [])
        (Origin.view p) = some ⟨a, d, u⟩ := by
  simp only [parentDidChangeStoreKeys]
  split
  next => exact hcur
  next =>
    rw [setView_views_self]
    simp only [Option.getD_some]
    rw [lookupBatch_setBatch_self, hcur]
    simp only [Option.getD_some]
    rw [scAddEach_subset a a (fun x hx => hx),
      scAddEach_subset d d (fun x hx => hx),
      scAddEach_subset u u (fun x hx => hx)]

theorem foldl_PDCS_child (qa qd qu : List Nat) (P C : Nat)
    (hna : qa.Nodup) (hnd : qd.Nodup) (hnu : qu.Nodup)
    (hne : qa.length + qd.length + qu.length ≠ 0) :
    ∀ (ns : List Nat) (w : World), C ∈ ns →
      lookupBatch ((w.views C).changed.getD []) (Origin.view P) = none →
      lookupBatch
        (((ns.foldl (fun acc c => parentDidChangeStoreKeys acc c qa qd qu P) w).views C).changed.getD [])
        (Origin.view P) = some ⟨qa, qd, qu⟩ := by
  have hkeep : ∀ (l : List Nat) (w0 : World),
      lookupBatch ((w0.views C).changed.getD []) (Origin.view P)
        = some ⟨qa, qd, qu⟩ →
      lookupBatch
        (((l.foldl (fun acc c => parentDidChangeStoreKeys acc c qa qd qu P) w0).views C).changed.getD [])
        (Origin.view P) = some ⟨qa, qd, qu⟩ := by
    intro l
    induction l with
    | nil => intro w0 hh; exact hh
    | cons y r2 ih2 =>
      intro w0 hh
      rw [List.foldl_cons]
      apply ih2
      by_cases hy : C = y
      · subst hy
        exact PDCS_lookup_stable w0 C qa qd qu P hh
      · rw [PDCS_views_other _ _ _ _ _ _ _ (fun he => hy he)]
        exact hh
  intro ns
  induction ns with
  | nil => intro w hC _; simp at hC
  | cons x rest ih =>
    intro w hC hfresh
    rw [List.foldl_cons]
    by_cases hx : x = C
    · subst hx
      exact hkeep rest _ (PDCS_lookup_fresh w x qa qd qu P hfresh hne hna hnd hnu)
    · have hC2 : C ∈ rest := by
        rcases List.mem_cons.mp hC with h | h
        · exact absurd h.symm hx
        · exact h
      apply ih _ hC2
      rw [PDCS_views_other _ _ _ _ _ _ _ (fun he => hx he.symm)]
      exact hfresh

theorem PDCS_core_fields (w : World) (c : Nat) (a d u : List Nat) (p x : Nat) :
    ((parentDidChangeStoreKeys w c a d u p).views x).enabled = (w.views x).enabled ∧
    ((parentDidChangeStoreKeys w c a d u p).views x).insideFlush = (w.views x).insideFlush ∧
    ((parentDidChangeStoreKeys w c a d u p).views x).location = (w.views x).location ∧
    ((parentDidChangeStoreKeys w c a d u p).views x).scope = (w.views x).scope ∧
    ((parentDidChangeStoreKeys w c a d u p).views x).storeKeys = (w.views x).storeKeys := by
  simp only [parentDidChangeStoreKeys]
  split
  · exact ⟨rfl, rfl, rfl, rfl, rfl⟩
  · by_cases hx : x = c
    · subst hx
      rw [setView_views_self]
      exact ⟨rfl, rfl, rfl, rfl, rfl⟩
    · rw [setView_views_other _ _ _ _ hx]
      exact ⟨rfl, rfl, rfl, rfl, rfl⟩

theorem foldl_PDCS_core_fields (qa qd qu : List Nat) (p : Nat) :
    ∀ (ns : List Nat) (w : World) (x : Nat),
      (((ns.foldl (fun acc c => parentDidChangeStoreKeys acc c qa qd qu p) w).views x).enabled
          = (w.views x).enabled) ∧
      (((ns.foldl (fun acc c => parentDidChangeStoreKeys acc c qa qd qu p) w).views x).insideFlush
          = (w.views x).insideFlush) ∧
      (((ns.foldl (fun acc c => parentDidChangeStoreKeys acc c qa qd qu p) w).views x).location
          = (w.views x).location) ∧
      (((ns.foldl (fun acc c => parentDidChangeStoreKeys acc c qa qd qu p) w).views x).scope
          = (w.views x).scope) ∧
      (((ns.foldl (fun acc c => parentDidChangeStoreKeys acc c qa qd qu p) w).views x).storeKeys
          = (w.views x).storeKeys) := by
  intro ns
  induction ns with
  | nil => intro w x; exact ⟨rfl, rfl, rfl, rfl, rfl⟩
  | cons y rest ih =>
    intro w x
    rw [List.foldl_cons]
    obtain ⟨h1, h2, h3, h4, h5⟩ := ih (parentDidChangeStoreKeys w y qa qd qu p) x
    obtain ⟨g1, g2, g3, g4, g5⟩ := PDCS_core_fields w y qa qd qu p x
    exact ⟨h1.trans g1, h2.trans g2, h3.trans g3, h4.trans g4, h5.trans g5⟩

theorem setView_setView (w : World) (v : Nat) (s1 s2 : ViewState) :
    (w.setView v s1).setView v s2 = w.setView v s2 := by
  simp only [World.setView]
  congr 1
  funext i
  by_cases hi : i = v <;> simp [hi]

/-- One-step unfolding of flush on the main path, for a view without parent
scopes. -/
theorem flush_main_eq_noscope (fuel : Nat) (m : MergeFn) (force : Bool)
    (w : World) (v : Nat)
    (h1 : ¬((w.views v).needsFlush = false ∧ force = false))
    (h2 : (w.views v).enabled = true)
    (h3 : (w.views v).insideFlush = false)
    (h4 : (w.views v).location = QueryLocation.localQ)
    (h5 : (w.views v).scope = none) :
    flush (fuel + 1) m force w v
      = (flushMergePhase m force
          (w.setView v { w.views v with needsFlush := false, insideFlush := true }) v).setView v
          { (flushMergePhase m force
              (w.setView v { w.views v with needsFlush := false, insideFlush := true }) v).views v
            with insideFlush := false } := by
  simp only [flush]
  rw [if_neg h1, if_neg (by simp [h2]), if_neg (by simp [h3]), if_neg (by simp [h4]),
    h5, setView_views_self, setView_setView]

/-- One-step unfolding of flush on the main path, for a view with parent
scopes. -/
theorem flush_main_eq_scope (fuel : Nat) (m : MergeFn) (force : Bool)
    (w : World) (v : Nat) (parents : List Nat)
    (h1 : ¬((w.views v).needsFlush = false ∧ force = false))
    (h2 : (w.views v).enabled = true)
    (h3 : (w.views v).insideFlush = false)
    (h4 : (w.views v).location = QueryLocation.localQ)
    (h5 : (w.views v).scope = some parents) :
    flush (fuel + 1) m force w v
      = (flushMergePhase m force
          (parents.foldl (fun acc p => flush fuel m false acc p)
            (w.setView v { w.views v with needsFlush := false, insideFlush := true })) v).setView v
          { (flushMergePhase m force
              (parents.foldl (fun acc p => flush fuel m false acc p)
                (w.setView v { w.views v with needsFlush := false, insideFlush := true })) v).views v
            with insideFlush := false } := by
  simp only [flush]
  rw [if_neg h1, if_neg (by simp [h2]), if_neg (by simp [h3]), if_neg (by simp [h4]),
    h5, setView_views_self, setView_setView]

theorem notify_nested (vs : ViewState) (old : Option (List Nat))
    (nw : List Nat) (ds : Nat × Nat) :
    (notifyStoreKeyChanges vs old nw ds).nested = vs.nested := by
  simp only [notifyStoreKeyChanges]
  split <;> rfl

theorem notify_storeKeys (vs : ViewState) (old : Option (List Nat))
    (nw : List Nat) (ds : Nat × Nat) :
    (notifyStoreKeyChanges vs old nw ds).storeKeys = vs.storeKeys := by
  simp only [notifyStoreKeyChanges]
  split <;> rfl

theorem mergeStep_nested (m : MergeFn) (force : Bool) (v : Nat)
    (vs : ViewState) : (mergeStep m force v vs).1.nested = vs.nested := by
  simp only [mergeStep]
  split
  next => rw [notify_nested]
  next => rfl

theorem mergeStep_storeKeys (m : MergeFn) (force : Bool) (v : Nat)
    (vs : ViewState) (sk : List Nat) (hsk : vs.storeKeys = some sk) :
    (mergeStep m force v vs).1.storeKeys
      = some (m v (if force = true then none else vs.storeKeys) vs.changed).storeKeys := by
  simp only [mergeStep]
  split
  next ds heq => rw [notify_storeKeys]
  next heq =>
    show vs.storeKeys
      = some (m v (if force = true then none else vs.storeKeys) vs.changed).storeKeys
    rw [hsk] at heq
    rw [hsk]
    have h2 := (findDifferences_eq_none_iff (some sk)
      (m v (if force = true then none else some sk) vs.changed).storeKeys).mp heq
    simp only at h2
    exact congrArg some h2

/-- Unfolding of the merge phase when the view has pending batches or was
never flushed, and its nested set is known. -/
theorem mergePhase_eq (m : MergeFn) (force : Bool) (w : World) (v : Nat)
    (ns : List Nat)
    (hcond : (w.views v).changed.isSome = true ∨ (w.views v).flushed = false)
    (hnest : (w.views v).nested = some ns) :
    flushMergePhase m force w v
      = ns.foldl (fun acc c => parentDidChangeStoreKeys acc c
            (mergeStep m force v (w.views v)).2.added
            (mergeStep m force v (w.views v)).2.deleted
            (mergeStep m force v (w.views v)).2.updated v)
          (w.setView v (mergeStep m force v (w.views v)).1) := by
  simp only [flushMergePhase]
  rw [if_pos hcond]
  have hscrut : ((w.setView v (mergeStep m force v (w.views v)).1).views v).nested
      = some ns := by
    rw [setView_views_self, mergeStep_nested, hnest]
  rw [hscrut]

/-- The merge phase stores exactly the store keys of the merge result, when
the branch is taken and the view already holds a store keys array. -/
theorem mergePhase_storeKeys_self (m : MergeFn) (force : Bool) (w : World)
    (v : Nat) (sk : List Nat)
    (hcond : (w.views v).changed.isSome = true)
    (hsk : (w.views v).storeKeys = some sk) :
    ((flushMergePhase m force w v).views v).storeKeys
      = some (m v (if force = true then none else (w.views v).storeKeys)
          (w.views v).changed).storeKeys := by
  have hfoldsk : ∀ (qa qd qu : List Nat) (p : Nat) (ns : List Nat) (w0 : World) (x : Nat),
      (((ns.foldl (fun acc c => parentDidChangeStoreKeys acc c qa qd qu p) w0).views x).storeKeys)
        = (w0.views x).storeKeys :=
    fun qa qd qu p ns w0 x => (foldl_PDCS_core_fields qa qd qu p ns w0 x).2.2.2.2
  simp only [flushMergePhase]
  rw [if_pos (Or.inl hcond)]
  split
  next ns heq =>
    rw [hfoldsk, setView_views_self, mergeStep_storeKeys m force v _ sk hsk]
  next heq =>
    rw [setView_views_self, mergeStep_storeKeys m force v _ sk hsk]

/-- C7: a flush of parent P whose merge yields the change sets (a, d, u),
not all empty, writes exactly those sets as the batch tagged with P into
every registered child C that had no batch for P yet; and the next flush of
C hands its accumulated batches, including that entry, to the merge
function: the store keys C ends up with are precisely those the merge
returns for that batch dictionary. -/
theorem C7_parent_to_child (fuel : Nat) (m : MergeFn) (w : World) (P C : Nat)
    (ns skC ks a d u : List Nat)
    (hPC : C ≠ P)
    (hPn : (w.views P).needsFlush = true)
    (hPe : (w.views P).enabled = true)
    (hPi : (w.views P).insideFlush = false)
    (hPl : (w.views P).location = QueryLocation.localQ)
    (hPs : (w.views P).scope = none)
    (hPchg : (w.views P).changed.isSome = true)
    (hPnest : (w.views P).nested = some ns)
    (hCmem : C ∈ ns)
    (hCn : (w.views C).needsFlush = true)
    (hCe : (w.views C).enabled = true)
    (hCi : (w.views C).insideFlush = false)
    (hCl : (w.views C).location = QueryLocation.localQ)
    (hCs : (w.views C).scope = some [P])
    (hCsk : (w.views C).storeKeys = some skC)
    (hCfresh : lookupBatch ((w.views C).changed.getD []) (Origin.view P) = none)
    (hm : m P (w.views P).storeKeys (w.views P).changed = ⟨ks, a, d, u⟩)
    (hna : a.Nodup) (hnd : d.Nodup) (hnu : u.Nodup)
    (hne : a.length + d.length + u.length ≠ 0) :
    lookupBatch
        (((flush (fuel + 1) m false w P).views C).changed.getD [])
        (Origin.view P) = some ⟨a, d, u⟩ ∧
    ∀ (fuel2 : Nat) (m2 : MergeFn),
      ((flush (fuel2 + 2) m2 false (flush (fuel + 1) m false w P) C).views C).storeKeys
        = some (m2 C (((flush (fuel + 1) m false w P).views C).storeKeys)
            (((flush (fuel + 1) m false w P).views C).changed)).storeKeys := by
  have hPcond : ¬((w.views P).needsFlush = false ∧ false = false) := by
    rw [hPn]; simp
  have hw1 := flush_main_eq_noscope fuel m false w P hPcond hPe hPi hPl hPs
  have hP2chg : ((w.setView P { w.views P with needsFlush := false, insideFlush := true }).views P).changed.isSome = true := by
    rw [setView_views_self]; exact hPchg
  have hP2nest : ((w.setView P { w.views P with needsFlush := false, insideFlush := true }).views P).nested = some ns := by
    rw [setView_views_self]; exact hPnest
  have hmp := mergePhase_eq m false
    (w.setView P { w.views P with needsFlush := false, insideFlush := true }) P ns
    (Or.inl hP2chg) hP2nest
  have hqr : (mergeStep m false P
      ((w.setView P { w.views P with needsFlush := false, insideFlush := true }).views P)).2
      = ⟨ks, a, d, u⟩ := by
    rw [setView_views_self]
    exact hm
  -- the state of C after the flush of P
  have hviewsC : (flush (fuel + 1) m false w P).views C
      = ((ns.foldl (fun acc c => parentDidChangeStoreKeys acc c a d u P)
          ((w.setView P { w.views P with needsFlush := false, insideFlush := true }).setView P
            (mergeStep m false P
              ((w.setView P { w.views P with needsFlush := false, insideFlush := true }).views P)).1)).views C) := by
    rw [hw1, setView_views_other _ _ _ _ hPC, hmp]
    simp only [hqr]
  have hbaseC : (((w.setView P { w.views P with needsFlush := false, insideFlush := true }).setView P
      (mergeStep m false P
        ((w.setView P { w.views P with needsFlush := false, insideFlush := true }).views P)).1).views C)
      = w.views C := by
    rw [setView_views_other _ _ _ _ hPC, setView_views_other _ _ _ _ hPC]
  have hC1 : lookupBatch
      (((flush (fuel + 1) m false w P).views C).changed.getD [])
      (Origin.view P) = some ⟨a, d, u⟩ := by
    rw [hviewsC]
    apply foldl_PDCS_child a d u P C hna hnd hnu hne ns _ hCmem
    rw [hbaseC]
    exact hCfresh
  refine ⟨hC1, ?_⟩
  intro fuel2 m2
  -- fields of C after the flush of P
  obtain ⟨hF1, hF2, hF3, hF4, hF5⟩ := foldl_PDCS_core_fields a d u P ns
    ((w.setView P { w.views P with needsFlush := false, insideFlush := true }).setView P
      (mergeStep m false P
        ((w.setView P { w.views P with needsFlush := false, insideFlush := true }).views P)).1) C
  rw [hbaseC] at hF1 hF2 hF3 hF4 hF5
  have hCe1 : ((flush (fuel + 1) m false w P).views C).enabled = true := by
    rw [hviewsC, hF1]; exact hCe
  have hCi1 : ((flush (fuel + 1) m false w P).views C).insideFlush = false := by
    rw [hviewsC, hF2]; exact hCi
  have hCl1 : ((flush (fuel + 1) m false w P).views C).location = QueryLocation.localQ := by
    rw [hviewsC, hF3]; exact hCl
  have hCs1 : ((flush (fuel + 1) m false w P).views C).scope = some [P] := by
    rw [hviewsC, hF4]; exact hCs
  have hCsk1 : ((flush (fuel + 1) m false w P).views C).storeKeys = some skC := by
    rw [hviewsC, hF5]; exact hCsk
  have hCn1 : ((flush (fuel + 1) m false w P).views C).needsFlush = true := by
    rw [hviewsC, foldl_PDCS_needsFlush, hbaseC]; exact hCn
  have hCchg1 : ((flush (fuel + 1) m false w P).views C).changed.isSome = true := by
    cases hc : ((flush (fuel + 1) m false w P).views C).changed with
    | none => rw [hc] at hC1; simp [lookupBatch] at hC1
    | some bs => rfl
  have hPnf1 : ((flush (fuel + 1) m false w P).views P).needsFlush = false :=
    flush_clears_needsFlush fuel m false w P hPcond hPe hPi
  have hCcond : ¬(((flush (fuel + 1) m false w P).views C).needsFlush = false
      ∧ false = false) := by
    rw [hCn1]; simp
  rw [flush_main_eq_scope (fuel2 + 1) m2 false (flush (fuel + 1) m false w P) C [P]
    hCcond hCe1 hCi1 hCl1 hCs1]
  rw [List.foldl_cons, List.foldl_nil]
  have hPnoop : flush (fuel2 + 1) m2 false
      ((flush (fuel + 1) m false w P).setView C
        { (flush (fuel + 1) m false w P).views C with needsFlush := false, insideFlush := true }) P
      = ((flush (fuel + 1) m false w P).setView C
        { (flush (fuel + 1) m false w P).views C with needsFlush := false, insideFlush := true }) := by
    apply flush_noop
    rw [setView_views_other _ _ _ _ (fun he => hPC he.symm)]
    exact hPnf1
  rw [hPnoop, setView_views_self]
  have hchg2 : (((flush (fuel + 1) m false w P).setView C
      { (flush (fuel + 1) m false w P).views C with needsFlush := false, insideFlush := true }).views C).changed.isSome = true := by
    rw [setView_views_self]
    exact hCchg1
  have hsk2 : (((flush (fuel + 1) m false w P).setView C
      { (flush (fuel + 1) m false w P).views C with needsFlush := false, insideFlush := true }).views C).storeKeys = some skC := by
    rw [setView_views_self]
    exact hCsk1
  have hres := mergePhase_storeKeys_self m2 false
    ((flush (fuel + 1) m false w P).setView C
      { (flush (fuel + 1) m false w P).views C with needsFlush := false, insideFlush := true }) C skC
    hchg2 hsk2
  rw [setView_views_self] at hres
  show ((flushMergePhase m2 false _ C).views C).storeKeys = _
  exact hres

theorem C7_parent_to_child_witness :
    lookupBatch (((flush 1 mergeC7 false worldC7 0).views 1).changed.getD [])
        (Origin.view 0) = some ⟨[2], [], []⟩ ∧
    ((flush 2 mergeNull false (flush 1 mergeC7 false worldC7 0) 1).views 1).storeKeys
      = some (mergeNull 1 (((flush 1 mergeC7 false worldC7 0).views 1).storeKeys)
          (((flush 1 mergeC7 false worldC7 0).views 1).changed)).storeKeys := by
  obtain ⟨h1, h2⟩ := C7_parent_to_child 0 mergeC7 worldC7 0 1 [1] [] [1, 2] [2] [] []
    (by decide) rfl rfl rfl rfl rfl rfl rfl (by decide)
    rfl rfl rfl rfl rfl rfl rfl rfl (by decide) (by decide) (by decide) (by decide)
  exact ⟨h1, h2 0 mergeNull⟩

/-! Claim C5: destroy ordering and idempotence. -/
theorem setView_events (w : World) (v : Nat) (s : ViewState) :
    (w.setView v s).events = w.events := rfl

theorem rAWD_events (w : World) (p c : Nat) :
    (recordArrayWillDestroy w p c).events = w.events ++ [DEvent.dereg p c] := by
  simp only [recordArrayWillDestroy]
  split <;> rfl

theorem foldl_rAWD_events (v : Nat) :
    ∀ (ps : List Nat) (w : World),
      (ps.foldl (fun acc p => recordArrayWillDestroy acc p v) w).events
        = w.events ++ ps.map (fun p => DEvent.dereg p v) := by
  intro ps
  induction ps with
  | nil => intro w; simp
  | cons x rest ih =>
    intro w
    rw [List.foldl_cons, ih, rAWD_events]
    simp

theorem destroyFinish_events (w : World) (v : Nat) (sk : Option (List Nat))
    (len : Nat) :
    (destroyFinish w v sk len).events = w.events ++ [DEvent.storeDetach v] := by
  simp only [destroyFinish]
  split <;> split <;> rfl

theorem destroyFinish_isDestroyed_self (w : World) (v : Nat)
    (sk : Option (List Nat)) (len : Nat) :
    ((destroyFinish w v sk len).views v).isDestroyed = true := by
  simp only [destroyFinish]
  split <;> split <;> rw [setView_views_self]

theorem destroyFinish_keeps_isDestroyed (w : World) (v : Nat)
    (sk : Option (List Nat)) (len : Nat) (u : Nat)
    (h : (w.views u).isDestroyed = true) :
    ((destroyFinish w v sk len).views u).isDestroyed = true := by
  by_cases hu : u = v
  · subst hu; exact destroyFinish_isDestroyed_self w u sk len
  · simp only [destroyFinish]
    split <;> split <;>
      simp only [setView_views_other _ _ _ _ hu] <;> exact h

theorem rAWD_isDestroyed (w : World) (p c u : Nat) :
    ((recordArrayWillDestroy w p c).views u).isDestroyed
      = (w.views u).isDestroyed := by
  simp only [recordArrayWillDestroy]
  split
  next ns heq =>
    by_cases hu : u = p
    · subst hu; rw [setView_views_self]
    · rw [setView_views_other _ _ _ _ hu]
  next => rfl

theorem destroy_sets_self (fuel : Nat) (w : World) (v : Nat) :
    ((destroy (fuel + 1) w v).views v).isDestroyed = true := by
  simp only [destroy]
  split
  next => rw [setView_views_self]
  next =>
    split <;> split <;> exact destroyFinish_isDestroyed_self _ v _ _

theorem destroy_keeps_destroyed :
    ∀ (fuel : Nat) (w : World) (x u : Nat),
      (w.views u).isDestroyed = true →
      ((destroy fuel w x).views u).isDestroyed = true := by
  intro fuel
  induction fuel with
  | zero => intro w x u h; exact h
  | succ f ih =>
    intro w x u h
    have hfold : ∀ (cs : List Nat) (w0 : World),
        (w0.views u).isDestroyed = true →
        ((cs.foldl (fun acc c => destroy f acc c) w0).views u).isDestroyed = true := by
      intro cs
      induction cs with
      | nil => intro w0 hh; exact hh
      | cons y rest ihc =>
        intro w0 hh
        rw [List.foldl_cons]
        exact ihc _ (ih w0 y u hh)
    have hfoldr : ∀ (ps : List Nat) (w0 : World),
        (w0.views u).isDestroyed = true →
        ((ps.foldl (fun acc p => recordArrayWillDestroy acc p x) w0).views u).isDestroyed
          = true := by
      intro ps
      induction ps with
      | nil => intro w0 hh; exact hh
      | cons y rest ihp =>
        intro w0 hh
        rw [List.foldl_cons]
        exact ihp _ (by rw [rAWD_isDestroyed]; exact hh)
    simp only [destroy]
    split
    next =>
      by_cases hu : u = x
      · subst hu; rw [setView_views_self]
      · rw [setView_views_other _ _ _ _ hu]; exact h
    next =>
      split
      next ns heq =>
        split
        next ps heq2 =>
          exact destroyFinish_keeps_isDestroyed _ x _ _ u (hfold ns _ (hfoldr ps w h))
        next heq2 =>
          exact destroyFinish_keeps_isDestroyed _ x _ _ u (hfold ns w h)
      next heq =>
        split
        next ps heq2 =>
          exact destroyFinish_keeps_isDestroyed _ x _ _ u (hfoldr ps w h)
        next heq2 =>
          exact destroyFinish_keeps_isDestroyed _ x _ _ u h

theorem destroy_events_append :
    ∀ (fuel : Nat) (w : World) (v : Nat),
      ∃ t, (destroy fuel w v).events = w.events ++ t := by
  intro fuel
  induction fuel with
  | zero => intro w v; exact ⟨[], by simp [destroy]⟩
  | succ f ih =>
    intro w v
    have hfold : ∀ (cs : List Nat) (w0 : World), ∃ t,
        (cs.foldl (fun acc c => destroy f acc c) w0).events = w0.events ++ t := by
      intro cs
      induction cs with
      | nil => intro w0; exact ⟨[], by simp⟩
      | cons x rest ihc =>
        intro w0
        obtain ⟨t1, ht1⟩ := ih w0 x
        obtain ⟨t2, ht2⟩ := ihc (destroy f w0 x)
        exact ⟨t1 ++ t2, by rw [List.foldl_cons, ht2, ht1, List.append_assoc]⟩
    simp only [destroy]
    split
    next => exact ⟨[], by rw [setView_events, List.append_nil]⟩
    next =>
      split
      next ns heq =>
        split
        next ps heq2 =>
          obtain ⟨t2, ht2⟩ := hfold ns
            (ps.foldl (fun acc p => recordArrayWillDestroy acc p v) w)
          refine ⟨ps.map (fun p => DEvent.dereg p v) ++ t2
            ++ [DEvent.storeDetach v], ?_⟩
          rw [destroyFinish_events, ht2, foldl_rAWD_events]
          simp [List.append_assoc]
        next heq2 =>
          obtain ⟨t2, ht2⟩ := hfold ns w
          refine ⟨t2 ++ [DEvent.storeDetach v], ?_⟩
          rw [destroyFinish_events, ht2]
          simp [List.append_assoc]
      next heq =>
        split
        next ps heq2 =>
          refine ⟨ps.map (fun p => DEvent.dereg p v) ++ [DEvent.storeDetach v], ?_⟩
          rw [destroyFinish_events, foldl_rAWD_events]
          simp [List.append_assoc]
        next heq2 =>
          exact ⟨[DEvent.storeDetach v], by rw [destroyFinish_events]⟩

theorem foldl_destroy_events_append (f : Nat) (cs : List Nat) (w : World) :
    ∃ t, (cs.foldl (fun acc c => destroy f acc c) w).events = w.events ++ t := by
  induction cs generalizing w with
  | nil => exact ⟨[], by simp⟩
  | cons x rest ihc =>
    obtain ⟨t1, ht1⟩ := destroy_events_append f w x
    obtain ⟨t2, ht2⟩ := ihc (destroy f w x)
    exact ⟨t1 ++ t2, by rw [List.foldl_cons, ht2, ht1, List.append_assoc]⟩

theorem foldl_destroy_all (f : Nat) :
    ∀ (cs : List Nat) (w : World) (c : Nat), c ∈ cs →
      ((cs.foldl (fun acc x => destroy (f + 1) acc x) w).views c).isDestroyed
        = true := by
  intro cs
  induction cs with
  | nil => intro w c hc; simp at hc
  | cons x rest ih =>
    intro w c hc
    rw [List.foldl_cons]
    rcases List.mem_cons.mp hc with rfl | hc2
    · have h1 := destroy_sets_self f w c
      have hkeep : ∀ (l : List Nat) (w0 : World),
          (w0.views c).isDestroyed = true →
          ((l.foldl (fun acc x => destroy (f + 1) acc x) w0).views c).isDestroyed
            = true := by
        intro l
        induction l with
        | nil => intro w0 hh; exact hh
        | cons y r2 ih2 =>
          intro w0 hh
          rw [List.foldl_cons]
          exact ih2 _ (destroy_keeps_destroyed (f + 1) w0 y c hh)
      exact hkeep rest _ h1
    · exact ih (destroy (f + 1) w x) c hc2

theorem setView_destroyed_id (w : World) (v : Nat)
    (h : (w.views v).isDestroyed = true) :
    w.setView v { w.views v with isDestroyed := true } = w := by
  have hvs : { w.views v with isDestroyed := true } = w.views v := by
    have h2 := h
    cases hv : w.views v
    rw [hv] at h2
    simp only at h2
    simp [h2]
  rw [hvs]
  cases w with
  | mk views events =>
    simp only [World.setView]
    congr 1
    funext i
    by_cases hi : i = v
    · subst hi; simp
    · simp [hi]

/-- One-step unfolding of destroy on a live view with known scope and
nested sets. -/
theorem destroy_not_destroyed_eq (fuel : Nat) (w : World) (v : Nat)
    (ps cs : List Nat)
    (hnd : (w.views v).isDestroyed = false)
    (hsc : (w.views v).scope = some ps)
    (hns : (w.views v).nested = some cs) :
    destroy (fuel + 1) w v
      = destroyFinish
          (cs.foldl (fun acc c => destroy fuel acc c)
            (ps.foldl (fun acc p => recordArrayWillDestroy acc p v) w))
          v ((w.views v).storeKeys) (((w.views v).storeKeys).getD []).length := by
  simp only [destroy]
  rw [if_neg (by simp [hnd]), hns, hsc]

/-- A second destroy on an already destroyed view leaves the world
unchanged. -/
theorem destroy_noop_of_destroyed (fuel2 : Nat) (w2 : World) (v : Nat)
    (h : (w2.views v).isDestroyed = true) : destroy fuel2 w2 v = w2 := by
  cases fuel2 with
  | zero => rfl
  | succ f2 =>
    simp only [destroy]
    rw [if_pos h]
    exact setView_destroyed_id w2 v h

/-- C5 (amended): destroying a not-yet-destroyed view first deregisters it
from each of its parents, in scope order, and only then forces every
registered nested view to destroy (the deregistration events form the
initial segment of the appended event log, the child destructions follow);
every registered child ends up destroyed; and a second destroy call is a
no-op. -/
theorem C5_destroy_amended (fuel : Nat) (w : World) (v : Nat)
    (ps cs : List Nat)
    (hnd : (w.views v).isDestroyed = false)
    (hsc : (w.views v).scope = some ps)
    (hns : (w.views v).nested = some cs) :
    (∃ rest, (destroy (fuel + 2) w v).events
        = w.events ++ ps.map (fun p => DEvent.dereg p v) ++ rest) ∧
    (∀ c, c ∈ cs → ((destroy (fuel + 2) w v).views c).isDestroyed = true) ∧
    (∀ fuel2, destroy fuel2 (destroy (fuel + 2) w v) v = destroy (fuel + 2) w v) := by
  refine ⟨?_, ?_, ?_⟩
  · rw [destroy_not_destroyed_eq (fuel + 1) w v ps cs hnd hsc hns]
    obtain ⟨t1, ht1⟩ := foldl_destroy_events_append (fuel + 1) cs
      (ps.foldl (fun acc p => recordArrayWillDestroy acc p v) w)
    refine ⟨t1 ++ [DEvent.storeDetach v], ?_⟩
    rw [destroyFinish_events, ht1, foldl_rAWD_events]
    simp [List.append_assoc]
  · intro c hc
    rw [destroy_not_destroyed_eq (fuel + 1) w v ps cs hnd hsc hns]
    exact destroyFinish_keeps_isDestroyed _ v _ _ c (foldl_destroy_all fuel cs _ c hc)
  · intro fuel2
    exact destroy_noop_of_destroyed fuel2 _ v (destroy_sets_self (fuel + 1) w v)

/-- C5 counterexample: destroying view 0 (parent 10, children 1 and 2)
deregisters from the parent first; the children are destroyed afterwards,
so the claimed children-before-deregistration order fails. -/
theorem C5_destroy_order_cex :
    (destroy 3 worldC5 0).events =
      [DEvent.dereg 10 0, DEvent.dereg 0 1, DEvent.storeDetach 1,
       DEvent.dereg 0 2, DEvent.storeDetach 2, DEvent.storeDetach 0] ∧
    ¬ childrenDestroyedBeforeDereg 0 [10] [1, 2] (destroy 3 worldC5 0).events := by
  constructor
  · decide
  · intro h
    have := h 2 (by decide) 0 (by decide)
      (by decide)
      (by decide)
    omega

theorem C5_destroy_amended_witness :
    (∃ rest, (destroy 3 worldC5 0).events
        = worldC5.events ++ [10].map (fun p => DEvent.dereg p 0) ++ rest) ∧
    ((destroy 3 worldC5 0).views 1).isDestroyed = true ∧
    ((destroy 3 worldC5 0).views 2).isDestroyed = true ∧
    destroy 5 (destroy 3 worldC5 0) 0 = destroy 3 worldC5 0 := by
  obtain ⟨h1, h2, h3⟩ := C5_destroy_amended 1 worldC5 0 [10] [1, 2] rfl rfl rfl
  exact ⟨h1, h2 1 (by decide), h2 2 (by decide), h3 5⟩

/-! Claim C9: indexOf and lastIndexOf with a non-record argument. -/
/-- C9 counterexample: calling indexOf with a non-record argument does not
raise an error to the caller: the source logs a warning and returns -1. -/
theorem C9_indexOf_cex :
    (indexOf 1 mergeNull worldC2 0 JsArg.notRecord 0).2 = Except.ok (-1) ∧
    (indexOf 1 mergeNull worldC2 0 JsArg.notRecord 0).2
      ≠ Except.error RAError.notEditable ∧
    (indexOf 1 mergeNull worldC2 0 JsArg.notRecord 0).2
      ≠ Except.error RAError.noStoreKeys := by
  refine ⟨rfl, ?_, ?_⟩ <;> intro h <;> exact Except.noConfusion h

/-- C9 (amended): with an argument that is not a record, both indexOf and
lastIndexOf return -1 immediately (after logging a warning), leaving the
world untouched and raising no error. -/
theorem C9_indexOf_not_record (fuel : Nat) (m : MergeFn) (w : World) (v : Nat)
    (startAt : Nat) :
    indexOf fuel m w v JsArg.notRecord startAt = (w, Except.ok (-1)) ∧
    lastIndexOf fuel m w v JsArg.notRecord startAt = (w, Except.ok (-1)) :=
  ⟨rfl, rfl⟩

theorem notify_changed (vs : ViewState) (old : Option (List Nat))
    (nw : List Nat) (ds : Nat × Nat) :
    (notifyStoreKeyChanges vs old nw ds).changed = vs.changed := by
  simp only [notifyStoreKeyChanges]
  split <;> rfl

theorem mergeStep_changed (m : MergeFn) (force : Bool) (v : Nat)
    (vs : ViewState) : (mergeStep m force v vs).1.changed = none := by
  simp only [mergeStep]
  split
  next => rw [notify_changed]
  next => rfl

theorem pDBD_changed : ∀ (fuel : Nat) (w : World) (v u : Nat),
    ((parentDidBecomeDirty fuel w v).views u).changed = (w.views u).changed := by
  intro fuel
  induction fuel with
  | zero => intro w v u; rfl
  | succ f ih =>
    intro w v u
    simp only [parentDidBecomeDirty]
    have hset : ∀ x,
        ((w.setView v { w.views v with needsFlush := true }).views x).changed
          = (w.views x).changed := by
      intro x
      by_cases hx : x = v
      · subst hx; rw [setView_views_self]
      · rw [setView_views_other _ _ _ _ hx]
    split
    next ns heq =>
      have hfold : ∀ (l : List Nat) (w0 : World) (x : Nat),
          ((l.foldl (fun acc c => parentDidBecomeDirty f acc c) w0).views x).changed
            = (w0.views x).changed := by
        intro l
        induction l with
        | nil => intro w0 x; rfl
        | cons y rest ihl =>
          intro w0 x
          rw [List.foldl_cons, ihl, ih]
      rw [hfold, hset]
    next => rw [hset]

theorem changedOK_none : changedOK none := by
  intro b hb
  simp [lookupBatch] at hb

theorem StoreInv_setView (w : World) (v : Nat) (s : ViewState)
    (hs : s.changed = (w.views v).changed) (h : StoreInv w) :
    StoreInv (w.setView v s) := by
  intro x
  by_cases hx : x = v
  · subst hx; rw [setView_views_self]; unfold changedOK; rw [hs]; exact h x
  · rw [setView_views_other _ _ _ _ hx]; exact h x

theorem PDCS_StoreInv (w : World) (c : Nat) (a d u : List Nat) (p : Nat)
    (h : StoreInv w) : StoreInv (parentDidChangeStoreKeys w c a d u p) := by
  intro x
  by_cases hx : x = c
  · subst hx
    simp only [parentDidChangeStoreKeys]
    split
    next => exact h x
    next =>
      rw [setView_views_self]
      intro b hb
      simp only [Option.getD_some] at hb
      rw [lookupBatch_setBatch_other _ _ _ _
        (fun hq => Origin.noConfusion hq)] at hb
      exact h x b hb
  · rw [PDCS_views_other _ _ _ _ _ _ _ hx]
    exact h x

theorem storeDidChange_StoreInv (fuel : Nat) (w : World) (v : Nat)
    (keys : List Nat) (ct : Bool) (h : StoreInv w) :
    StoreInv (storeDidChangeStoreKeys fuel w v keys ct) := by
  simp only [storeDidChangeStoreKeys]
  split
  next => exact h
  next =>
    split
    next => exact h
    next =>
      split
      next => exact h
      next =>
        intro x
        unfold changedOK
        rw [pDBD_changed]
        by_cases hx : x = v
        · subst hx
          rw [setView_views_self]
          intro b hb
          simp only [Option.getD_some] at hb
          rw [lookupBatch_setBatch_self] at hb
          injection hb with hb2
          subst hb2
          cases hcase : lookupBatch ((w.views x).changed.getD []) Origin.store with
          | none => exact ⟨rfl, rfl⟩
          | some b0 => exact ⟨(h x b0 hcase).1, (h x b0 hcase).2⟩
        · rw [setView_views_other _ _ _ _ hx]
          exact h x

theorem foldl_PDCS_StoreInv (qa qd qu : List Nat) (p : Nat) :
    ∀ (ns : List Nat) (w : World), StoreInv w →
      StoreInv (ns.foldl (fun acc c => parentDidChangeStoreKeys acc c qa qd qu p) w) := by
  intro ns
  induction ns with
  | nil => intro w h; exact h
  | cons x rest ih =>
    intro w h
    rw [List.foldl_cons]
    exact ih _ (PDCS_StoreInv w x qa qd qu p h)

theorem mergePhase_StoreInv (m : MergeFn) (force : Bool) (w : World) (v : Nat)
    (h : StoreInv w) : StoreInv (flushMergePhase m force w v) := by
  have hbase : StoreInv (w.setView v (mergeStep m force v (w.views v)).1) := by
    intro x
    by_cases hx : x = v
    · subst hx
      rw [setView_views_self]
      unfold changedOK
      rw [mergeStep_changed]
      exact changedOK_none
    · rw [setView_views_other _ _ _ _ hx]
      exact h x
  simp only [flushMergePhase]
  split
  · split
    next ns heq => exact foldl_PDCS_StoreInv _ _ _ _ ns _ hbase
    next heq => exact hbase
  · exact h

theorem flush_StoreInv : ∀ (fuel : Nat) (m : MergeFn) (force : Bool)
    (w : World) (v : Nat), StoreInv w → StoreInv (flush fuel m force w v) := by
  intro fuel
  induction fuel with
  | zero => intro m force w v h; exact h
  | succ f ih =>
    intro m force w v h
    have hfold : ∀ (ps : List Nat) (w0 : World), StoreInv w0 →
        StoreInv (ps.foldl (fun acc p => flush f m false acc p) w0) := by
      intro ps
      induction ps with
      | nil => intro w0 hh; exact hh
      | cons x rest ihp =>
        intro w0 hh
        rw [List.foldl_cons]
        exact ihp _ (ih m false w0 x hh)
    simp only [flush]
    split
    next => exact h
    next =>
      split
      next => exact h
      next =>
        split
        next => exact h
        next =>
          have h1 : StoreInv (w.setView v { w.views v with needsFlush := false }) :=
            StoreInv_setView w v _ rfl h
          split
          next => exact h1
          next =>
            apply StoreInv_setView
            · rfl
            · apply mergePhase_StoreInv
              split
              next ps heq =>
                exact hfold ps _ (StoreInv_setView _ _ _ rfl h1)
              next heq =>
                exact StoreInv_setView _ _ _ rfl h1

theorem flushFromLeafs_StoreInv : ∀ (fuel : Nat) (m : MergeFn) (w : World)
    (v : Nat), StoreInv w → StoreInv (flushFromLeafs fuel m w v) := by
  intro fuel
  induction fuel with
  | zero => intro m w v h; exact h
  | succ f ih =>
    intro m w v h
    simp only [flushFromLeafs]
    split
    next ns heq =>
      have hfold : ∀ (l : List Nat) (w0 : World), StoreInv w0 →
          StoreInv (l.foldl (fun acc c => flushFromLeafs f m acc c) w0) := by
        intro l
        induction l with
        | nil => intro w0 hh; exact hh
        | cons x rest ihl =>
          intro w0 hh
          rw [List.foldl_cons]
          exact ihl _ (ih m w0 x hh)
      exact hfold ns w h
    next => exact flush_StoreInv (f + 1) m false w v h

theorem pDBD_StoreInv (fuel : Nat) (w : World) (v : Nat) (h : StoreInv w) :
    StoreInv (parentDidBecomeDirty fuel w v) := by
  intro x
  unfold changedOK
  rw [pDBD_changed]
  exact h x

theorem rAWD_changed (w : World) (p c u : Nat) :
    ((recordArrayWillDestroy w p c).views u).changed = (w.views u).changed := by
  simp only [recordArrayWillDestroy]
  split
  next ns heq =>
    by_cases hu : u = p
    · subst hu; rw [setView_views_self]
    · rw [setView_views_other _ _ _ _ hu]
  next => rfl

theorem destroyFinish_changed (w : World) (v : Nat) (sk : Option (List Nat))
    (len : Nat) (u : Nat) :
    ((destroyFinish w v sk len).views u).changed = (w.views u).changed := by
  by_cases hu : u = v
  · subst hu
    simp only [destroyFinish]
    split <;> split <;>
      simp only [setView_views_self, setView_views_other] <;> rfl
  · simp only [destroyFinish]
    split <;> split <;>
      simp only [setView_views_other _ _ _ _ hu] <;> rfl

theorem destroy_changed : ∀ (fuel : Nat) (w : World) (x u : Nat),
    ((destroy fuel w x).views u).changed = (w.views u).changed := by
  intro fuel
  induction fuel with
  | zero => intro w x u; rfl
  | succ f ih =>
    intro w x u
    have hfoldd : ∀ (cs : List Nat) (w0 : World),
        ((cs.foldl (fun acc c => destroy f acc c) w0).views u).changed
          = (w0.views u).changed := by
      intro cs
      induction cs with
      | nil => intro w0; rfl
      | cons y rest ihc =>
        intro w0
        rw [List.foldl_cons, ihc, ih]
    have hfoldr : ∀ (ps : List Nat) (w0 : World),
        ((ps.foldl (fun acc p => recordArrayWillDestroy acc p x) w0).views u).changed
          = (w0.views u).changed := by
      intro ps
      induction ps with
      | nil => intro w0; rfl
      | cons y rest ihp =>
        intro w0
        rw [List.foldl_cons, ihp, rAWD_changed]
    simp only [destroy]
    split
    next =>
      by_cases hu : u = x
      · subst hu; rw [setView_views_self]
      · rw [setView_views_other _ _ _ _ hu]
    next =>
      split
      next ns heq =>
        split
        next ps heq2 => rw [destroyFinish_changed, hfoldd, hfoldr]
        next heq2 => rw [destroyFinish_changed, hfoldd]
      next heq =>
        split
        next ps heq2 => rw [destroyFinish_changed, hfoldr]
        next heq2 => rw [destroyFinish_changed]

theorem replace_StoreInv (fuel : Nat) (m : MergeFn) (w : World) (v : Nat)
    (idx amt : Nat) (recs : List Nat) (h : StoreInv w) :
    StoreInv (replace fuel m w v idx amt recs).1 := by
  have h1 := flush_StoreInv fuel m false w v h
  simp only [replace]
  split
  next => exact h1
  next sk heq =>
    split
    next => exact h1
    next =>
      apply StoreInv_setView _ _ _ _ h1
      rfl

theorem indexOf_StoreInv (fuel : Nat) (m : MergeFn) (w : World) (v : Nat)
    (arg : JsArg) (startAt : Nat) (h : StoreInv w) :
    StoreInv (indexOf fuel m w v arg startAt).1 := by
  cases arg with
  | notRecord => exact h
  | record sk =>
    simp only [indexOf]
    split
    next => exact flush_StoreInv fuel m false w v h
    next keys heq => exact flush_StoreInv fuel m false w v h

theorem lastIndexOf_StoreInv (fuel : Nat) (m : MergeFn) (w : World) (v : Nat)
    (arg : JsArg) (startAt : Nat) (h : StoreInv w) :
    StoreInv (lastIndexOf fuel m w v arg startAt).1 := by
  cases arg with
  | notRecord => exact h
  | record sk =>
    simp only [lastIndexOf]
    split
    next => exact flush_StoreInv fuel m false w v h
    next keys heq => exact flush_StoreInv fuel m false w v h

/-- Every step of the machinery preserves the C10 invariant. -/
theorem Step_StoreInv {w w2 : World} (hstep : Step w w2) (h : StoreInv w) :
    StoreInv w2 := by
  cases hstep with
  | storeChanged fuel w v keys ct => exact storeDidChange_StoreInv fuel w v keys ct h
  | parentChanged w v a d u p => exact PDCS_StoreInv w v a d u p h
  | becameDirty fuel w v => exact pDBD_StoreInv fuel w v h
  | flushStep fuel m force w v => exact flush_StoreInv fuel m force w v h
  | flushLeafs fuel m w v => exact flushFromLeafs_StoreInv fuel m w v h
  | enableStep fuel m w v =>
    simp only [enable]
    split
    next => exact h
    next =>
      exact flushFromLeafs_StoreInv fuel m _ v (StoreInv_setView _ _ _ rfl h)
  | disableStep w v => exact StoreInv_setView _ _ _ rfl h
  | registered w v c => exact StoreInv_setView _ _ _ rfl h
  | willDestroy w v r =>
    intro x
    unfold changedOK
    rw [rAWD_changed]
    exact h x
  | destroyStep fuel w v =>
    intro x
    unfold changedOK
    rw [destroy_changed]
    exact h x
  | replaced fuel m w v idx amt recs => exact replace_StoreInv fuel m w v idx amt recs h
  | indexed fuel m w v arg startAt => exact indexOf_StoreInv fuel m w v arg startAt h
  | lastIndexed fuel m w v arg startAt => exact lastIndexOf_StoreInv fuel m w v arg startAt h

/-- storeDidChangeStoreKeys merges the notified keys only into the updated
set of the store batch: added and deleted are carried over unchanged. -/
theorem storeDidChange_updated_only (fuel : Nat) (w : World) (v : Nat)
    (keys : List Nat)
    (hloc : (w.views v).location = QueryLocation.localQ)
    (hk : keys.length ≠ 0) :
    lookupBatch (((storeDidChangeStoreKeys fuel w v keys true).views v).changed.getD [])
        Origin.store
      = some { (lookupBatch ((w.views v).changed.getD []) Origin.store).getD ⟨[], [], []⟩ with
          updated := scAddEach
            ((lookupBatch ((w.views v).changed.getD []) Origin.store).getD ⟨[], [], []⟩).updated
            keys } := by
  simp only [storeDidChangeStoreKeys]
  rw [if_neg (by simp [hloc]), if_neg (by simp), if_neg hk]
  rw [pDBD_changed, setView_views_self]
  simp only [Option.getD_some]
  rw [lookupBatch_setBatch_self]

/-- C10: starting from an initial world (no accumulated batches), every
state reachable through the record array operations satisfies the
invariant: the batch of store origin of every view has empty added and
deleted sets; moreover a store notification only merges its keys into the
updated set of the store batch. -/
theorem C10_store_origin_invariant (w0 w : World)
    (hInit : InitWorld w0)
    (hR : Relation.ReflTransGen Step w0 w) :
    StoreInv w ∧
    (∀ (fuel : Nat) (v : Nat) (keys : List Nat),
      (w.views v).location = QueryLocation.localQ →
      keys.length ≠ 0 →
      lookupBatch (((storeDidChangeStoreKeys fuel w v keys true).views v).changed.getD [])
          Origin.store
        = some { (lookupBatch ((w.views v).changed.getD []) Origin.store).getD ⟨[], [], []⟩ with
            updated := scAddEach
              ((lookupBatch ((w.views v).changed.getD []) Origin.store).getD ⟨[], [], []⟩).updated
              keys }) := by
  refine ⟨?_, fun fuel v keys hloc hk =>
    storeDidChange_updated_only fuel w v keys hloc hk⟩
  induction hR with
  | refl =>
    intro v
    unfold changedOK
    rw [hInit v]
    exact changedOK_none
  | tail hsteps hstep ih => exact Step_StoreInv hstep ih

theorem C10_store_origin_invariant_witness :
    InitWorld worldInit ∧
    StoreInv (storeDidChangeStoreKeys 1 worldInit 0 [5] true) := by
  have hInit : InitWorld worldInit := fun v => rfl
  refine ⟨hInit, ?_⟩
  exact (C10_store_origin_invariant worldInit _ hInit
    (Relation.ReflTransGen.single (Step.storeChanged 1 worldInit 0 [5] true))).1

end SCRecordArray
